import Mathlib

/-!
# Verification of the `fba` cloud-drive file-sync engine

Shallow embedding of `backend/app/coulddrive/service/filesync_service.py`
(the diff-and-apply core, the batched-transfer parameter construction, the
adaptive error policy, the terminal task-status rule), of
`backend/app/task/tasks/filesync/tasks.py` (`_should_execute_now`), and of
the rename-rule fragment of
`backend/app/coulddrive/service/rule_template_service.py`.

Conventions of the embedding:
* Directory listings are finite lists of `SNode`.  The engine's `list_dir`
  builds a dict keyed by the canonical name (`name + "/"` for folders,
  `name` for files) in listing order; we keep the listing itself and use
  `findByKey` for dict lookup.  Listings of real drives have pairwise
  distinct canonical keys; the predicate `wfL` states this where a theorem
  needs it.
* Provider calls (`transfer`, `mkdir`, `remove`) are modelled as always
  succeeding, and their effect on the remote target tree is the obvious
  one (server-side copy / create / delete) — the engine only *issues* the
  operations, the provider itself is outside the repository.
* The recursion of `sync_with_have` / `sync_without_have` is bounded by
  `current_depth >= max_depth`.  We realise it structurally on the fuel
  `max_depth - current_depth`; the wrappers `syncWithHave` /
  `syncWithoutHave` expose the source signature `(max_depth,
  current_depth)`, and `fuel = 0` is exactly the source guard
  `current_depth >= max_depth`.
-/

namespace FbaSync

/-- The running counters of `perform_sync` (`stats` dict, filesync_service.py
lines 303-312).  `errors` collects rendered error strings. -/
structure Stats where
  files_processed : Nat
  folder_created : Nat
  files_transferred : Nat
  files_deleted : Nat
  files_skipped : Nat
  errors : List String
deriving Repr, DecidableEq

/-- Fresh counters at the start of `perform_sync`. -/
def Stats.init : Stats := ⟨0, 0, 0, 0, 0, []⟩

/-- One entry of a directory listing: a file with its byte size and
provider id, or a folder with its child listing. -/
inductive SNode where
  | file (name : String) (size : Nat) (fid : String)
  | dir (name : String) (children : List SNode)
deriving Repr

abbrev Listing := List SNode

/-- Canonical key of `list_dir`: `file_name + '/'` for folders, the bare
name for files (filesync_service.py line 705). -/
def SNode.key : SNode → String
  | .file n _ _ => n
  | .dir n _ => n ++ "/"

/-- Child listing of a target entry (empty for a file). -/
def SNode.childrenD : SNode → Listing
  | .file _ _ _ => []
  | .dir _ c => c

/-- Dict lookup in a listing by canonical key (first occurrence). -/
def findByKey (T : Listing) (k : String) : Option SNode :=
  T.find? (fun t => t.key == k)

/-- `target_file_map.get(file_name, {}).get("file_size", -1)`
(filesync_service.py line 416): `-1` encodes a missing entry. -/
def tgtSize (T : Listing) (n : String) : Int :=
  match findByKey T n with
  | none => -1
  | some (.file _ s _) => (s : Int)
  | some (.dir _ _) => 0

/-- A file collected into `files_to_transfer` (name, source size, source id). -/
structure XferItem where
  name : String
  size : Nat
  fid : String
deriving Repr, DecidableEq

/-- A provider operation emitted by the engine, tagged with the target
path it acts on. -/
inductive SyncOp where
  | mkdir (tpath : String)
  | transfer (tpath : String) (names : List String)
  | delete (tpath : String) (keys : List String)
deriving Repr, DecidableEq

/-- Provider effect of transferring one file into a target listing:
server-side copy, replacing a same-named file if present. -/
def upsertFile (T : Listing) (it : XferItem) : Listing :=
  match T with
  | [] => [SNode.file it.name it.size it.fid]
  | t :: rest =>
      if t.key == it.name then SNode.file it.name it.size it.fid :: rest
      else t :: upsertFile rest it

/-- Provider effect of one batched `transfer` call. -/
def applyTransfer (T : Listing) (items : List XferItem) : Listing :=
  items.foldl upsertFile T

/-- Replace (in the bookkept target state) the child listing of the first
entry whose canonical key is `n ++ "/"`. -/
def setDirChildren (T : Listing) (n : String) (c : Listing) : Listing :=
  match T with
  | [] => []
  | t :: rest =>
      if t.key == n ++ "/" then SNode.dir n c :: rest
      else t :: setDirChildren rest n c

/-- Provider effect of one batched `remove` call. -/
def removeKeys (T : Listing) (ks : List String) : Listing :=
  T.filter (fun t => !(ks.contains t.key))

/-- Python `str.rstrip('/')`, written on the character list so that it
evaluates inside the kernel. -/
def rstripSlash (p : String) : String :=
  ⟨(p.data.reverse.dropWhile (· == '/')).reverse⟩

/-- `target_path.rstrip('/') + '/' + dir_name + '/'`
(filesync_service.py lines 444-445). -/
def childPath (p n : String) : String :=
  rstripSlash p ++ "/" ++ n ++ "/"

/-- The loop of `sync_without_have` over the source listing
(filesync_service.py lines 580-612): folders recurse immediately (into the
recursion function `recWo`, standing for the depth+1 call), files are
counted in `files_processed` and collected for the batched transfer after
the loop.  `acc` is the bookkept listing of the freshly created target
directory. -/
def woLoop (recWo : String → String → Listing → Stats → Stats × Option Listing × List SyncOp)
    (sp tp : String) (entries : Listing) (acc : Listing) (s : Stats) :
    Stats × Listing × List SyncOp × List XferItem :=
  match entries with
  | [] => (s, acc, [], [])
  | SNode.dir n c :: rest =>
      let r0 := recWo (childPath sp n) (childPath tp n) c s
      let acc' := match r0.2.1 with
        | none => acc
        | some cs => acc ++ [SNode.dir n cs]
      let r := woLoop recWo sp tp rest acc' r0.1
      (r.1, r.2.1, r0.2.2 ++ r.2.2.1, r.2.2.2)
  | SNode.file n sz fid :: rest =>
      let s1 : Stats := { s with files_processed := s.files_processed + 1 }
      let r := woLoop recWo sp tp rest acc s1
      (r.1, r.2.1, r.2.2.1, ⟨n, sz, fid⟩ :: r.2.2.2)

/-- `sync_without_have` (filesync_service.py lines 505-628), structurally
on the fuel `max_depth - current_depth`.  `fuel = 0` is the source guard
`current_depth >= max_depth` (return before creating anything).  Returns
the final stats, the listing of the created directory (`none` when the
depth guard fired and no directory was created), and the emitted
operations: the `mkdir` first, then the operations of the sub-directory
recursions in listing order, then this level's batched `transfer`. -/
def syncGoWo : Nat → String → String → String → Listing → Stats →
    Stats × Option Listing × List SyncOp
  | 0, _m, _sp, _tp, _S, s => (s, none, [])
  | fuel + 1, m, sp, tp, S, s =>
      let s1 : Stats := { s with folder_created := s.folder_created + 1 }
      let r := woLoop (syncGoWo fuel m) sp tp S [] s1
      let fx := r.2.2.2
      if fx.isEmpty then (r.1, some r.2.1, SyncOp.mkdir tp :: r.2.2.1)
      else
        ({ r.1 with files_transferred := r.1.files_transferred + fx.length },
         some (applyTransfer r.2.1 fx),
         SyncOp.mkdir tp :: (r.2.2.1 ++ [SyncOp.transfer tp (fx.map XferItem.name)]))

/-- The per-file transfer decision of `sync_with_have`
(filesync_service.py line 418): transfer iff the canonical name is absent
from the target map or the stored byte size differs. -/
def needsTransfer (origT : Listing) (n : String) (sz : Nat) : Bool :=
  (findByKey origT n).isNone || (tgtSize origT n != (sz : Int))

/-- The loop of `sync_with_have` over the source listing
(filesync_service.py lines 409-466).  Files are counted, then either
collected into `files_to_transfer` or counted as skipped; folders recurse
immediately — into `recWo` when the target map lacks the folder, into
`recHave` otherwise.  `origT` is the immutable target map built by
`list_dir`; `T` is the bookkept provider state of the target directory. -/
def haveLoop
    (recHave : String → String → Listing → Listing → Stats → Stats × Listing × List SyncOp)
    (recWo : String → String → Listing → Stats → Stats × Option Listing × List SyncOp)
    (sp tp : String) (entries : Listing) (origT T : Listing) (s : Stats) :
    Stats × Listing × List SyncOp × List XferItem :=
  match entries with
  | [] => (s, T, [], [])
  | SNode.file n sz fid :: rest =>
      let s1 : Stats := { s with files_processed := s.files_processed + 1 }
      if needsTransfer origT n sz then
        let r := haveLoop recHave recWo sp tp rest origT T s1
        (r.1, r.2.1, r.2.2.1, ⟨n, sz, fid⟩ :: r.2.2.2)
      else
        let s2 : Stats := { s1 with files_skipped := s1.files_skipped + 1 }
        let r := haveLoop recHave recWo sp tp rest origT T s2
        (r.1, r.2.1, r.2.2.1, r.2.2.2)
  | SNode.dir n c :: rest =>
      match findByKey origT (n ++ "/") with
      | none =>
          let r0 := recWo (childPath sp n) (childPath tp n) c s
          let T' := match r0.2.1 with
            | none => T
            | some cs => T ++ [SNode.dir n cs]
          let r := haveLoop recHave recWo sp tp rest origT T' r0.1
          (r.1, r.2.1, r0.2.2 ++ r.2.2.1, r.2.2.2)
      | some t =>
          let r0 := recHave (childPath sp n) (childPath tp n) c t.childrenD s
          let r := haveLoop recHave recWo sp tp rest origT (setDirChildren T n r0.2.1) r0.1
          (r.1, r.2.1, r0.2.2 ++ r.2.2.1, r.2.2.2)

/-- `sync_with_have` (filesync_service.py lines 353-503), structurally on
the fuel `max_depth - current_depth` (`fuel = 0` is the source guard
`current_depth >= max_depth`).  After the loop the collected files go out
in one batched `transfer`; in `full` mode the target entries whose
canonical key is absent from the source map are removed in one batched
`delete`, computed from the original target map. -/
def syncGoHave : Nat → String → String → String → Listing → Listing → Stats →
    Stats × Listing × List SyncOp
  | 0, _m, _sp, _tp, _S, T, s => (s, T, [])
  | fuel + 1, m, sp, tp, S, T, s =>
      let r := haveLoop (syncGoHave fuel m) (syncGoWo fuel m) sp tp S T T s
      let fx := r.2.2.2
      let step2 : Stats × Listing × List SyncOp :=
        if fx.isEmpty then (r.1, r.2.1, r.2.2.1)
        else
          ({ r.1 with files_transferred := r.1.files_transferred + fx.length },
           applyTransfer r.2.1 fx,
           r.2.2.1 ++ [SyncOp.transfer tp (fx.map XferItem.name)])
      if m == "full" then
        let dels := T.filter (fun t => !(S.any (fun e => e.key == t.key)))
        if dels.isEmpty then step2
        else
          ({ step2.1 with files_deleted := step2.1.files_deleted + dels.length },
           removeKeys step2.2.1 (dels.map SNode.key),
           step2.2.2 ++ [SyncOp.delete tp (dels.map SNode.key)])
      else step2

/-- `sync_with_have` with the source signature
`(sync_method, max_depth, current_depth, source_path, target_path, S, T, stats)`. -/
def syncWithHave (m : String) (maxDepth currentDepth : Nat) (sp tp : String)
    (S T : Listing) (s : Stats) : Stats × Listing × List SyncOp :=
  syncGoHave (maxDepth - currentDepth) m sp tp S T s

/-- `sync_without_have` with the source signature. -/
def syncWithoutHave (m : String) (maxDepth currentDepth : Nat) (sp tp : String)
    (S : Listing) (s : Stats) : Stats × Option Listing × List SyncOp :=
  syncGoWo (maxDepth - currentDepth) m sp tp S s

/-- Modelled from the spec: the `SyncMethod` enum values
(`backend.app.coulddrive.schema.enum` is not in the source tree; the spec
fixes `method ∈ {incremental, full, overwrite}`). -/
def SyncMethod.incremental : String := "incremental"

/-- Modelled from the spec: see `SyncMethod.incremental`. -/
def SyncMethod.full : String := "full"

/-- Modelled from the spec: see `SyncMethod.incremental`. -/
def SyncMethod.overwrite : String := "overwrite"

/-- Python `str.lower()`, written on the character list so that it
evaluates inside the kernel (`Char.toLower`; identical on the ASCII
method / error strings this code compares). -/
def strLower (s : String) : String :=
  ⟨s.data.map Char.toLower⟩

/-- `_parse_sync_method` (filesync_service.py lines 242-254):
`method_str.lower() if method_str else ""`, matched against the three
known methods, defaulting to incremental. -/
def parseSyncMethod (methodStr : Option String) : String :=
  let methodLower := match methodStr with
    | none => ""
    | some str => if str == "" then "" else strLower str
  if methodLower == SyncMethod.incremental then SyncMethod.incremental
  else if methodLower == SyncMethod.full then SyncMethod.full
  else if methodLower == SyncMethod.overwrite then SyncMethod.overwrite
  else SyncMethod.incremental

/-- Size stored in the listing map: `0` for folders (filesync_service.py
line 706). -/
def SNode.sizeD : SNode → Nat
  | .file _ s _ => s
  | .dir _ _ => 0

/-- Provider id stored in the listing map (folders of the share listing
also carry one; we keep `""` for folders, which no claim inspects). -/
def SNode.fidD : SNode → String
  | .file _ _ f => f
  | .dir _ _ => ""

/-- `_handle_overwrite_sync` (filesync_service.py lines 1053-1136): list
the target root and delete everything in one batch, then transfer every
top-level source entry (files and folders) in one batch.  The provider
copies folders recursively server-side (modelled from the spec), so the
resulting target root is the source listing. -/
def handleOverwriteSync (sp tp : String) (S T : Listing) (s : Stats) :
    Stats × Listing × List SyncOp :=
  let step1 : Stats × Listing × List SyncOp :=
    if T.isEmpty then (s, T, [])
    else
      ({ s with files_deleted := s.files_deleted + T.length },
       [], [SyncOp.delete tp (T.map SNode.key)])
  if S.isEmpty then step1
  else
    let s2 : Stats :=
      { step1.1 with files_processed := step1.1.files_processed + S.length }
    ({ s2 with files_transferred := s2.files_transferred + S.length },
     S,
     step1.2.2 ++ [SyncOp.transfer tp (S.map SNode.key)])

/-- The strategy dispatch of `perform_sync` (filesync_service.py lines
317-330): `overwrite` goes to `_handle_overwrite_sync`, everything else to
`sync_with_have` at depth 0 with fresh stats. -/
def performSync (m : String) (maxDepth : Nat) (sp tp : String) (S T : Listing) :
    Stats × Listing × List SyncOp :=
  if m == SyncMethod.overwrite then handleOverwriteSync sp tp S T Stats.init
  else syncWithHave m maxDepth 0 sp tp S T Stats.init

end FbaSync

namespace FbaSync

/-! ## The per-level transfer decision (`sync_with_have`, lines 409-437) -/

/-- The files a `sync_with_have` level collects into `files_to_transfer`,
in listing order: exactly the file entries whose canonical name is absent
from the target map or whose stored byte size differs. -/
def collectFiles (origT : Listing) : Listing → List XferItem
  | [] => []
  | SNode.file n sz fid :: rest =>
      if needsTransfer origT n sz then ⟨n, sz, fid⟩ :: collectFiles origT rest
      else collectFiles origT rest
  | SNode.dir _ _ :: rest => collectFiles origT rest

/-- Number of file entries at one level of a listing. -/
def levelFileCount : Listing → Nat
  | [] => 0
  | SNode.file _ _ _ :: rest => levelFileCount rest + 1
  | SNode.dir _ _ :: rest => levelFileCount rest

/-- A listing made of plain files only (no sub-directories). -/
def flatListing : Listing → Bool
  | [] => true
  | SNode.file _ _ _ :: rest => flatListing rest
  | SNode.dir _ _ :: _ => false

theorem haveLoop_toTransfer (recHave recWo sp tp) (entries : Listing) :
    ∀ origT T s,
      (haveLoop recHave recWo sp tp entries origT T s).2.2.2 = collectFiles origT entries := by
  induction entries with
  | nil => intro origT T s; rfl
  | cons e rest ih =>
      intro origT T s
      cases e with
      | file n sz fid =>
          by_cases h : needsTransfer origT n sz
          · simp [haveLoop, collectFiles, h, ih]
          · simp [haveLoop, collectFiles, h, ih]
      | dir n c =>
          cases hf : findByKey origT (n ++ "/") with
          | none => simp [haveLoop, collectFiles, hf, ih]
          | some t => simp [haveLoop, collectFiles, hf, ih]

theorem haveLoop_flat_skipped (recHave recWo sp tp) (entries : Listing) :
    ∀ origT T s, flatListing entries = true →
      (haveLoop recHave recWo sp tp entries origT T s).1.files_skipped =
        s.files_skipped + (levelFileCount entries - (collectFiles origT entries).length) ∧
      (collectFiles origT entries).length ≤ levelFileCount entries := by
  induction entries with
  | nil => intro origT T s _; exact ⟨rfl, Nat.le_refl 0⟩
  | cons e rest ih =>
      intro origT T s hflat
      cases e with
      | file n sz fid =>
          have hrest : flatListing rest = true := hflat
          cases h : needsTransfer origT n sz with
          | true =>
            have h2 := ih origT T { s with files_processed := s.files_processed + 1 } hrest
            constructor
            · simp only [haveLoop, h, if_true, collectFiles, levelFileCount]
              rw [h2.1]
              have hle := h2.2
              simp only [List.length_cons]
              omega
            · simp only [collectFiles, h, if_true, levelFileCount, List.length_cons]
              omega
          | false =>
            have h2 := ih origT T
              { s with files_processed := s.files_processed + 1,
                       files_skipped := s.files_skipped + 1 } hrest
            constructor
            · simp only [haveLoop, h, Bool.false_eq_true, if_false, collectFiles, levelFileCount]
              rw [h2.1]
              dsimp only
              have hle := h2.2
              omega
            · simp only [collectFiles, h, Bool.false_eq_true, if_false, levelFileCount]
              omega
      | dir n c => simp [flatListing] at hflat

end FbaSync

namespace FbaSync

/-- All file entries of one level, in listing order (what
`sync_without_have` collects, filesync_service.py lines 593-612). -/
def allFiles : Listing → List XferItem
  | [] => []
  | SNode.file n sz fid :: rest => ⟨n, sz, fid⟩ :: allFiles rest
  | SNode.dir _ _ :: rest => allFiles rest

theorem woLoop_toTransfer (recWo sp tp) (entries : Listing) :
    ∀ acc s, (woLoop recWo sp tp entries acc s).2.2.2 = allFiles entries := by
  induction entries with
  | nil => intro acc s; rfl
  | cons e rest ih =>
      intro acc s
      cases e with
      | file n sz fid => simp [woLoop, allFiles, ih]
      | dir n c => simp [woLoop, allFiles, ih]

theorem woLoop_proc_mono (recWo)
    (hW : ∀ sp tp c s, s.files_processed ≤ (recWo sp tp c s).1.files_processed)
    (sp tp) (entries : Listing) :
    ∀ acc s, s.files_processed ≤ (woLoop recWo sp tp entries acc s).1.files_processed := by
  induction entries with
  | nil => intro acc s; exact Nat.le_refl _
  | cons e rest ih =>
      intro acc s
      cases e with
      | file n sz fid =>
          have h1 := ih acc { s with files_processed := s.files_processed + 1 }
          simp only [woLoop]
          dsimp only at h1 ⊢
          omega
      | dir n c =>
          have h0 := hW (childPath sp n) (childPath tp n) c s
          have h1 := ih
            (match (recWo (childPath sp n) (childPath tp n) c s).2.1 with
              | none => acc
              | some cs => acc ++ [SNode.dir n cs])
            (recWo (childPath sp n) (childPath tp n) c s).1
          simp only [woLoop]
          omega

theorem syncGoWo_proc_mono :
    ∀ fuel m sp tp S s, s.files_processed ≤ (syncGoWo fuel m sp tp S s).1.files_processed := by
  intro fuel
  induction fuel with
  | zero => intro m sp tp S s; exact Nat.le_refl _
  | succ fuel ih =>
      intro m sp tp S s
      have h1 := woLoop_proc_mono (syncGoWo fuel m) (fun sp tp c s => ih m sp tp c s)
        sp tp S [] { s with folder_created := s.folder_created + 1 }
      simp only [syncGoWo]
      split
      · exact h1
      · exact h1

theorem haveLoop_proc_ge (recHave recWo)
    (hH : ∀ sp tp c T s, s.files_processed ≤ (recHave sp tp c T s).1.files_processed)
    (hW : ∀ sp tp c s, s.files_processed ≤ (recWo sp tp c s).1.files_processed)
    (sp tp) (entries : Listing) :
    ∀ origT T s,
      s.files_processed + levelFileCount entries ≤
        (haveLoop recHave recWo sp tp entries origT T s).1.files_processed := by
  induction entries with
  | nil => intro origT T s; exact Nat.le_refl _
  | cons e rest ih =>
      intro origT T s
      cases e with
      | file n sz fid =>
          cases h : needsTransfer origT n sz with
          | true =>
              have h1 := ih origT T { s with files_processed := s.files_processed + 1 }
              simp only [haveLoop, h, if_true, levelFileCount]
              dsimp only at h1 ⊢
              omega
          | false =>
              have h1 := ih origT T
                { s with files_processed := s.files_processed + 1,
                         files_skipped := s.files_skipped + 1 }
              simp only [haveLoop, h, Bool.false_eq_true, if_false, levelFileCount]
              dsimp only at h1 ⊢
              omega
      | dir n c =>
          cases hf : findByKey origT (n ++ "/") with
          | none =>
              have h0 := hW (childPath sp n) (childPath tp n) c s
              have h1 := ih origT
                (match (recWo (childPath sp n) (childPath tp n) c s).2.1 with
                  | none => T
                  | some cs => T ++ [SNode.dir n cs])
                (recWo (childPath sp n) (childPath tp n) c s).1
              simp only [haveLoop, hf, levelFileCount]
              omega
          | some t =>
              have h0 := hH (childPath sp n) (childPath tp n) c t.childrenD s
              have h1 := ih origT
                (setDirChildren T n (recHave (childPath sp n) (childPath tp n) c t.childrenD s).2.1)
                (recHave (childPath sp n) (childPath tp n) c t.childrenD s).1
              simp only [haveLoop, hf, levelFileCount]
              omega

theorem syncGoHave_succ_proc (fuel m sp tp S T s) :
    (syncGoHave (fuel + 1) m sp tp S T s).1.files_processed =
      (haveLoop (syncGoHave fuel m) (syncGoWo fuel m) sp tp S T T s).1.files_processed := by
  cases hfx : (haveLoop (syncGoHave fuel m) (syncGoWo fuel m) sp tp S T T s).2.2.2.isEmpty <;>
  cases hm : m == "full" <;>
  cases hd : (T.filter (fun t => !(S.any (fun e => e.key == t.key)))).isEmpty <;>
    simp [syncGoHave, hfx, hm, hd]

theorem syncGoHave_succ_skipped (fuel m sp tp S T s) :
    (syncGoHave (fuel + 1) m sp tp S T s).1.files_skipped =
      (haveLoop (syncGoHave fuel m) (syncGoWo fuel m) sp tp S T T s).1.files_skipped := by
  cases hfx : (haveLoop (syncGoHave fuel m) (syncGoWo fuel m) sp tp S T T s).2.2.2.isEmpty <;>
  cases hm : m == "full" <;>
  cases hd : (T.filter (fun t => !(S.any (fun e => e.key == t.key)))).isEmpty <;>
    simp [syncGoHave, hfx, hm, hd]

theorem syncGoHave_succ_errors (fuel m sp tp S T s) :
    (syncGoHave (fuel + 1) m sp tp S T s).1.errors =
      (haveLoop (syncGoHave fuel m) (syncGoWo fuel m) sp tp S T T s).1.errors := by
  cases hfx : (haveLoop (syncGoHave fuel m) (syncGoWo fuel m) sp tp S T T s).2.2.2.isEmpty <;>
  cases hm : m == "full" <;>
  cases hd : (T.filter (fun t => !(S.any (fun e => e.key == t.key)))).isEmpty <;>
    simp [syncGoHave, hfx, hm, hd]

theorem syncGoHave_succ_transferred_loop (fuel m sp tp S T s) :
    (syncGoHave (fuel + 1) m sp tp S T s).1.files_transferred =
      (haveLoop (syncGoHave fuel m) (syncGoWo fuel m) sp tp S T T s).1.files_transferred +
        (haveLoop (syncGoHave fuel m) (syncGoWo fuel m) sp tp S T T s).2.2.2.length := by
  cases hfx : (haveLoop (syncGoHave fuel m) (syncGoWo fuel m) sp tp S T T s).2.2.2.isEmpty with
  | true =>
      have hnil : (haveLoop (syncGoHave fuel m) (syncGoWo fuel m) sp tp S T T s).2.2.2 = [] := by
        simpa using hfx
      cases hm : m == "full" <;>
      cases hd : (T.filter (fun t => !(S.any (fun e => e.key == t.key)))).isEmpty <;>
        simp [syncGoHave, hfx, hm, hd, hnil]
  | false =>
      cases hm : m == "full" <;>
      cases hd : (T.filter (fun t => !(S.any (fun e => e.key == t.key)))).isEmpty <;>
        simp [syncGoHave, hfx, hm, hd]

theorem syncGoHave_succ_transferred (fuel m sp tp S T s) :
    (syncGoHave (fuel + 1) m sp tp S T s).1.files_transferred =
      (haveLoop (syncGoHave fuel m) (syncGoWo fuel m) sp tp S T T s).1.files_transferred +
        (collectFiles T S).length := by
  rw [syncGoHave_succ_transferred_loop,
      haveLoop_toTransfer (syncGoHave fuel m) (syncGoWo fuel m) sp tp S]

theorem syncGoHave_proc_mono :
    ∀ fuel m sp tp S T s, s.files_processed ≤ (syncGoHave fuel m sp tp S T s).1.files_processed := by
  intro fuel
  induction fuel with
  | zero => intro m sp tp S T s; exact Nat.le_refl _
  | succ fuel ih =>
      intro m sp tp S T s
      have h1 := haveLoop_proc_ge (syncGoHave fuel m) (syncGoWo fuel m)
        (fun sp tp c T' s' => ih m sp tp c T' s')
        (fun sp tp c s' => syncGoWo_proc_mono fuel m sp tp c s')
        sp tp S T T s
      rw [syncGoHave_succ_proc]
      omega

theorem syncGoWo_succ_proc (fuel m sp tp S s) :
    (syncGoWo (fuel + 1) m sp tp S s).1.files_processed =
      (woLoop (syncGoWo fuel m) sp tp S []
        { s with folder_created := s.folder_created + 1 }).1.files_processed := by
  cases hfx : (woLoop (syncGoWo fuel m) sp tp S []
      { s with folder_created := s.folder_created + 1 }).2.2.2.isEmpty <;>
    simp [syncGoWo, hfx]

theorem woLoop_no_delete (recWo)
    (hW : ∀ sp tp c s p ks, SyncOp.delete p ks ∉ (recWo sp tp c s).2.2)
    (sp tp) (entries : Listing) :
    ∀ acc s p ks, SyncOp.delete p ks ∉ (woLoop recWo sp tp entries acc s).2.2.1 := by
  induction entries with
  | nil => intro acc s p ks h; simp [woLoop] at h
  | cons e rest ih =>
      intro acc s p ks h
      cases e with
      | file n sz fid =>
          exact ih acc { s with files_processed := s.files_processed + 1 } p ks h
      | dir n c =>
          simp only [woLoop, List.mem_append] at h
          rcases h with h | h
          · exact hW (childPath sp n) (childPath tp n) c s p ks h
          · exact ih _ _ p ks h

theorem syncGoWo_no_delete :
    ∀ fuel m sp tp S s p ks, SyncOp.delete p ks ∉ (syncGoWo fuel m sp tp S s).2.2 := by
  intro fuel
  induction fuel with
  | zero => intro m sp tp S s p ks h; simp [syncGoWo] at h
  | succ fuel ih =>
      intro m sp tp S s p ks h
      have hloop := woLoop_no_delete (syncGoWo fuel m)
        (fun sp tp c s p ks => ih m sp tp c s p ks) sp tp S []
        { s with folder_created := s.folder_created + 1 } p ks
      cases hfx : (woLoop (syncGoWo fuel m) sp tp S []
          { s with folder_created := s.folder_created + 1 }).2.2.2.isEmpty <;>
        simp [syncGoWo, hfx] at h <;>
        exact hloop h

theorem haveLoop_no_delete (recHave recWo)
    (hH : ∀ sp tp c T s p ks, SyncOp.delete p ks ∉ (recHave sp tp c T s).2.2)
    (hW : ∀ sp tp c s p ks, SyncOp.delete p ks ∉ (recWo sp tp c s).2.2)
    (sp tp) (entries : Listing) :
    ∀ origT T s p ks,
      SyncOp.delete p ks ∉ (haveLoop recHave recWo sp tp entries origT T s).2.2.1 := by
  induction entries with
  | nil => intro origT T s p ks h; simp [haveLoop] at h
  | cons e rest ih =>
      intro origT T s p ks h
      cases e with
      | file n sz fid =>
          cases hn : needsTransfer origT n sz <;>
            simp only [haveLoop, hn, Bool.false_eq_true, if_false, if_true] at h
          · exact ih origT T _ p ks h
          · exact ih origT T _ p ks h
      | dir n c =>
          cases hf : findByKey origT (n ++ "/") with
          | none =>
              simp only [haveLoop, hf, List.mem_append] at h
              rcases h with h | h
              · exact hW (childPath sp n) (childPath tp n) c s p ks h
              · exact ih _ _ _ p ks h
          | some t =>
              simp only [haveLoop, hf, List.mem_append] at h
              rcases h with h | h
              · exact hH (childPath sp n) (childPath tp n) c t.childrenD s p ks h
              · exact ih _ _ _ p ks h

theorem syncGoHave_no_delete :
    ∀ fuel m, m ≠ "full" →
      ∀ sp tp S T s p ks, SyncOp.delete p ks ∉ (syncGoHave fuel m sp tp S T s).2.2 := by
  intro fuel
  induction fuel with
  | zero => intro m hm sp tp S T s p ks h; simp [syncGoHave] at h
  | succ fuel ih =>
      intro m hm sp tp S T s p ks h
      have hloop := haveLoop_no_delete (syncGoHave fuel m) (syncGoWo fuel m)
        (fun sp tp c T' s' p ks => ih m hm sp tp c T' s' p ks)
        (fun sp tp c s' p ks => syncGoWo_no_delete fuel m sp tp c s' p ks)
        sp tp S T T s p ks
      have hm' : (m == "full") = false := by
        cases hb : m == "full"
        · rfl
        · exact absurd (by simpa using hb) hm
      cases hfx : (haveLoop (syncGoHave fuel m) (syncGoWo fuel m) sp tp S T T s).2.2.2.isEmpty <;>
        simp [syncGoHave, hfx, hm'] at h <;>
        exact hloop h

end FbaSync

namespace FbaSync

theorem needsTransfer_iff (T : Listing) (n : String) (sz : Nat) :
    needsTransfer T n sz = true ↔ (findByKey T n = none ∨ tgtSize T n ≠ (sz : Int)) := by
  simp [needsTransfer, Option.isNone_iff_eq_none, bne_iff_ne]

theorem collectFiles_mem_decision (T : Listing) (S : Listing) (n : String) (sz : Nat)
    (fid : String) :
    (⟨n, sz, fid⟩ : XferItem) ∈ collectFiles T S → needsTransfer T n sz = true := by
  induction S with
  | nil => intro h; simp [collectFiles] at h
  | cons e rest ih =>
      intro h
      cases e with
      | file n' sz' fid' =>
          cases hn : needsTransfer T n' sz' with
          | true =>
              simp only [collectFiles, hn, if_true] at h
              rcases List.mem_cons.mp h with heq | hmem
              · injection heq with h1 h2 h3
                subst h1; subst h2
                exact hn
              · exact ih hmem
          | false =>
              simp only [collectFiles, hn, Bool.false_eq_true, if_false] at h
              exact ih h
      | dir n' c => exact ih (by rwa [collectFiles] at h)

theorem collectFiles_mem_complete (T : Listing) (S : Listing) (n : String) (sz : Nat)
    (fid : String) (hmem : SNode.file n sz fid ∈ S) (hd : needsTransfer T n sz = true) :
    (⟨n, sz, fid⟩ : XferItem) ∈ collectFiles T S := by
  induction S with
  | nil => simp at hmem
  | cons e rest ih =>
      rcases List.mem_cons.mp hmem with heq | hmem'
      · subst heq
        simp only [collectFiles, hd, if_true]
        exact List.mem_cons_self _ _
      · cases e with
        | file n' sz' fid' =>
            cases hn : needsTransfer T n' sz' with
            | true =>
                simp only [collectFiles, hn, if_true]
                exact List.mem_cons_of_mem _ (ih hmem')
            | false =>
                simp only [collectFiles, hn, Bool.false_eq_true, if_false]
                exact ih hmem'
        | dir n' c =>
            rw [collectFiles]
            exact ih hmem'

/-- C3: in `sync_with_have`, a source file is collected for transfer iff its
canonical name is absent from the target listing or the target entry's byte
size differs from the source size (the collected batch is `collectFiles`, in
listing order); every other source file bumps `files_skipped` by one (stated
for a level without sub-directories, so that no recursive call contributes to
the counter); the decision reads nothing but the name and the stored size —
the embedding carries no checksum or mtime at all. -/
theorem c3_collect_iff_absent_or_size_mismatch (fuel : Nat) (m sp tp : String)
    (S T : Listing) (s : Stats) :
    (haveLoop (syncGoHave fuel m) (syncGoWo fuel m) sp tp S T T s).2.2.2 = collectFiles T S ∧
    (∀ n sz fid, SNode.file n sz fid ∈ S →
      ((⟨n, sz, fid⟩ : XferItem) ∈ collectFiles T S ↔
        (findByKey T n = none ∨ tgtSize T n ≠ (sz : Int)))) ∧
    (flatListing S = true →
      (syncGoHave (fuel + 1) m sp tp S T s).1.files_skipped =
        s.files_skipped + (levelFileCount S - (collectFiles T S).length)) := by
  refine ⟨haveLoop_toTransfer _ _ _ _ _ _ _ _, ?_, ?_⟩
  · intro n sz fid hmem
    rw [← needsTransfer_iff]
    exact ⟨collectFiles_mem_decision T S n sz fid,
           collectFiles_mem_complete T S n sz fid hmem⟩
  · intro hflat
    rw [syncGoHave_succ_skipped]
    exact (haveLoop_flat_skipped (syncGoHave fuel m) (syncGoWo fuel m) sp tp S T T s hflat).1

/-- Witness for C3 at a concrete input: source `a.txt` of size 12 against a
target holding `a.txt` of size 10 is collected (size mismatch), and for an
equal-size target nothing is collected and one file is skipped. -/
theorem c3_witness :
    ((⟨"a.txt", 12, "i"⟩ : XferItem) ∈
      collectFiles [SNode.file "a.txt" 10 "j"] [SNode.file "a.txt" 12 "i"]) ∧
    (syncGoHave 1 "incremental" "/s/" "/t/" [SNode.file "a.txt" 12 "i"]
      [SNode.file "a.txt" 12 "j"] Stats.init).1.files_skipped =
      Stats.init.files_skipped +
        (levelFileCount [SNode.file "a.txt" 12 "i"] -
          (collectFiles [SNode.file "a.txt" 12 "j"] [SNode.file "a.txt" 12 "i"]).length) := by
  constructor
  · exact ((c3_collect_iff_absent_or_size_mismatch 0 "incremental" "/s/" "/t/"
      [SNode.file "a.txt" 12 "i"] [SNode.file "a.txt" 10 "j"] Stats.init).2.1
        "a.txt" 12 "i" (by simp)).mpr (Or.inr (by decide))
  · exact (c3_collect_iff_absent_or_size_mismatch 0 "incremental" "/s/" "/t/"
      [SNode.file "a.txt" 12 "i"] [SNode.file "a.txt" 12 "j"] Stats.init).2.2 (by decide)

/-- C9 (amended): a `sync_with_have` / `sync_without_have` call whose
`current_depth` has already reached `max_depth` returns immediately —
stats (in particular `errors`) unchanged, no operation emitted, no
directory created; a call strictly below `max_depth` does process its
level (every file of the level is counted in `files_processed`). -/
theorem c9_amended_depth_guard (m : String) (maxD depth : Nat) (sp tp : String)
    (S T : Listing) (s : Stats) :
    (maxD ≤ depth →
      syncWithHave m maxD depth sp tp S T s = (s, T, []) ∧
      syncWithoutHave m maxD depth sp tp S s = (s, none, [])) ∧
    (depth < maxD →
      s.files_processed + levelFileCount S ≤
        (syncWithHave m maxD depth sp tp S T s).1.files_processed) := by
  constructor
  · intro h
    have h0 : maxD - depth = 0 := Nat.sub_eq_zero_of_le h
    exact ⟨by rw [syncWithHave, h0]; rfl, by rw [syncWithoutHave, h0]; rfl⟩
  · intro h
    obtain ⟨f, hf⟩ : ∃ f, maxD - depth = f + 1 := ⟨maxD - depth - 1, by omega⟩
    rw [syncWithHave, hf, syncGoHave_succ_proc]
    exact haveLoop_proc_ge _ _ (fun sp tp c T' s' => syncGoHave_proc_mono f m sp tp c T' s')
      (fun sp tp c s' => syncGoWo_proc_mono f m sp tp c s') sp tp S T T s

/-- Witness for C9: at `max_depth = 2` a call at depth 2 is the identity,
and a call at depth 1 processes its single file. -/
theorem c9_witness :
    (syncWithHave "incremental" 2 2 "/s/" "/t/" [SNode.file "a" 1 "x"] [] Stats.init =
        (Stats.init, [], []) ∧
      syncWithoutHave "incremental" 2 2 "/s/" "/t/" [SNode.file "a" 1 "x"] Stats.init =
        (Stats.init, none, [])) ∧
    Stats.init.files_processed + levelFileCount [SNode.file "a" 1 "x"] ≤
      (syncWithHave "incremental" 2 1 "/s/" "/t/" [SNode.file "a" 1 "x"] [] Stats.init).1.files_processed :=
  ⟨(c9_amended_depth_guard "incremental" 2 2 "/s/" "/t/" [SNode.file "a" 1 "x"] [] Stats.init).1
      (by decide),
   (c9_amended_depth_guard "incremental" 2 1 "/s/" "/t/" [SNode.file "a" 1 "x"] [] Stats.init).2
      (by decide)⟩

/-- C9 counterexample to the claim as stated: a directory reached at
recursion depth exactly `max_depth` (here `max_depth = 1`, call at
`current_depth = 1`) is NOT processed — the source guard
`current_depth >= max_depth` fires, the stats stay untouched (its one file
is neither transferred nor even counted) and no operation is emitted. -/
theorem c9_counterexample :
    (syncWithHave "incremental" 1 1 "/s/" "/t/" [SNode.file "a" 1 "x"] [] Stats.init).1 =
      Stats.init ∧
    (syncWithHave "incremental" 1 1 "/s/" "/t/" [SNode.file "a" 1 "x"] [] Stats.init).2.2 =
      [] := by
  exact ⟨by decide, by decide⟩

/-- C10: any method string that is not (case-insensitively) one of
`incremental` / `full` / `overwrite` — the empty string and a missing
value included — parses to `incremental`, and a sync run with the parsed
method never issues a provider `delete`. -/
theorem c10_unknown_method_incremental_never_deletes :
    ∀ methodStr : Option String,
      (∀ str, methodStr = some str →
        strLower str ≠ "incremental" ∧ strLower str ≠ "full" ∧ strLower str ≠ "overwrite") →
      parseSyncMethod methodStr = SyncMethod.incremental ∧
      ∀ maxD sp tp S T p ks,
        SyncOp.delete p ks ∉ (performSync (parseSyncMethod methodStr) maxD sp tp S T).2.2 := by
  intro ms h
  have hparse : parseSyncMethod ms = SyncMethod.incremental := by
    cases ms with
    | none => rfl
    | some str =>
        obtain ⟨h1, h2, h3⟩ := h str rfl
        by_cases he : str = ""
        · subst he; rfl
        · have hb : (str == "") = false := beq_eq_false_iff_ne.mpr he
          have hb1 : (strLower str == "incremental") = false := beq_eq_false_iff_ne.mpr h1
          have hb2 : (strLower str == "full") = false := beq_eq_false_iff_ne.mpr h2
          have hb3 : (strLower str == "overwrite") = false := beq_eq_false_iff_ne.mpr h3
          simp [parseSyncMethod, SyncMethod.incremental, SyncMethod.full, SyncMethod.overwrite,
            hb, hb1, hb2, hb3]
  refine ⟨hparse, ?_⟩
  intro maxD sp tp S T p ks hmem
  rw [hparse] at hmem
  have hov : (SyncMethod.incremental == SyncMethod.overwrite) = false := by decide
  simp only [performSync, hov, Bool.false_eq_true, if_false, syncWithHave] at hmem
  exact syncGoHave_no_delete (maxD - 0) SyncMethod.incremental (by decide)
    sp tp S T Stats.init p ks hmem

/-- Witness for C10: the unknown method string `"Mirror"` parses to
`incremental` and its run issues no delete against a target holding a
stray file. -/
theorem c10_witness :
    parseSyncMethod (some "Mirror") = SyncMethod.incremental ∧
    SyncOp.delete "/t/" ["stale.txt"] ∉
      (performSync (parseSyncMethod (some "Mirror")) 5 "/s/" "/t/"
        [SNode.file "a" 1 "x"] [SNode.file "stale.txt" 2 "y"]).2.2 := by
  have h := c10_unknown_method_incremental_never_deletes (some "Mirror")
    (by
      intro str hs
      injection hs with hs
      subst hs
      refine ⟨?_, ?_, ?_⟩ <;> decide)
  exact ⟨h.1, h.2 5 "/s/" "/t/" [SNode.file "a" 1 "x"] [SNode.file "stale.txt" 2 "y"]
    "/t/" ["stale.txt"]⟩

/-- C8 (amended): within one directory level, the `mkdir` of
`sync_without_have` is emitted first; the operations of the recursion into
the level's sub-directories (the loop trace `haveLoop ... .2.2.1`) come
before the level's single batched `transfer`, and the `full`-strategy
batched `delete` is last; outside `full` mode no delete is appended. -/
theorem c8_amended_level_order (m : String) (fuel : Nat) (sp tp : String)
    (S T : Listing) (s : Stats) :
    (∃ rest, (syncGoWo (fuel + 1) m sp tp S s).2.2 = SyncOp.mkdir tp :: rest) ∧
    (∃ xferOps delOps,
      (syncGoHave (fuel + 1) m sp tp S T s).2.2 =
        (haveLoop (syncGoHave fuel m) (syncGoWo fuel m) sp tp S T T s).2.2.1 ++
          xferOps ++ delOps ∧
      (xferOps = [] ∨
        xferOps = [SyncOp.transfer tp ((collectFiles T S).map XferItem.name)]) ∧
      (delOps = [] ∨ ∃ ks, delOps = [SyncOp.delete tp ks]) ∧
      ((m == "full") = false → delOps = [])) := by
  constructor
  · cases hfx : (woLoop (syncGoWo fuel m) sp tp S []
        { s with folder_created := s.folder_created + 1 }).2.2.2.isEmpty <;>
      simp [syncGoWo, hfx]
  · have ht := haveLoop_toTransfer (syncGoHave fuel m) (syncGoWo fuel m) sp tp S T T s
    cases hfx : (haveLoop (syncGoHave fuel m) (syncGoWo fuel m) sp tp S T T s).2.2.2.isEmpty with
    | true =>
        have hnil : (haveLoop (syncGoHave fuel m) (syncGoWo fuel m) sp tp S T T s).2.2.2 = [] := by
          simpa using hfx
        cases hm : m == "full" with
        | false =>
            refine ⟨[], [], ?_, Or.inl rfl, Or.inl rfl, fun _ => rfl⟩
            simp [syncGoHave, hfx, hm]
        | true =>
            cases hd : (T.filter (fun t => !(S.any (fun e => e.key == t.key)))).isEmpty with
            | true =>
                refine ⟨[], [], ?_, Or.inl rfl, Or.inl rfl, fun hc => rfl⟩
                simp [syncGoHave, hfx, hm, hd]
            | false =>
                refine ⟨[], [SyncOp.delete tp
                    ((T.filter (fun t => !(S.any (fun e => e.key == t.key)))).map SNode.key)],
                  ?_, Or.inl rfl, Or.inr ⟨_, rfl⟩,
                  fun hc => by simp [hm] at hc⟩
                simp [syncGoHave, hfx, hm, hd]
    | false =>
        have hne : collectFiles T S ≠ [] := by
          rw [ht] at hfx
          simpa using hfx
        cases hm : m == "full" with
        | false =>
            refine ⟨[SyncOp.transfer tp ((collectFiles T S).map XferItem.name)], [],
              ?_, Or.inr rfl, Or.inl rfl, fun _ => rfl⟩
            simp [syncGoHave, hfx, hm, ht, hne]
        | true =>
            cases hd : (T.filter (fun t => !(S.any (fun e => e.key == t.key)))).isEmpty with
            | true =>
                refine ⟨[SyncOp.transfer tp ((collectFiles T S).map XferItem.name)], [],
                  ?_, Or.inr rfl, Or.inl rfl, fun hc => by simp [hm] at hc⟩
                simp [syncGoHave, hfx, hm, hd, ht, hne]
            | false =>
                refine ⟨[SyncOp.transfer tp ((collectFiles T S).map XferItem.name)],
                  [SyncOp.delete tp
                    ((T.filter (fun t => !(S.any (fun e => e.key == t.key)))).map SNode.key)],
                  ?_, Or.inr rfl, Or.inr ⟨_, rfl⟩,
                  fun hc => by simp [hm] at hc⟩
                simp [syncGoHave, hfx, hm, hd, ht, hne]

/-- Witness for C8 at a concrete input: the `mkdir` heads the trace. -/
theorem c8_witness :
    ∃ rest, (syncGoWo 1 "incremental" "/s/" "/t/" [] Stats.init).2.2 =
      SyncOp.mkdir "/t/" :: rest :=
  (c8_amended_level_order "incremental" 0 "/s/" "/t/" [] [] Stats.init).1

/-- C8 counterexample to the claim as stated: with source
`[a.txt (file), b/ (dir with c.txt)]` against an empty target, the emitted
trace is `mkdir /dst/b/ ; transfer /dst/b/ [c.txt] ; transfer /dst/ [a.txt]`
— the batched transfer of the level's files comes AFTER the recursion into
the level's sub-directory, not before it as claimed. -/
theorem c8_counterexample :
    (syncWithHave "incremental" 5 0 "/root/" "/dst/"
      [SNode.file "a.txt" 10 "i1", SNode.dir "b" [SNode.file "c.txt" 20 "i2"]]
      [] Stats.init).2.2 =
    [SyncOp.mkdir "/dst/b/", SyncOp.transfer "/dst/b/" ["c.txt"],
     SyncOp.transfer "/dst/" ["a.txt"]] := by decide

end FbaSync

namespace FbaSync

/-! ## Terminal task status (perform_sync lines 342-351, execute_sync_by_config_id lines 182-228) -/

/-- The summary `perform_sync` hands back: `success` is
`len(stats["errors"]) == 0`, `error` is `stats["errors"][0]` when any
error was collected, else `None`. -/
structure SyncOutcome where
  success : Bool
  error : Option String
deriving Repr, DecidableEq

/-- filesync_service.py lines 342-351. -/
def performSyncOutcome (stats : Stats) : SyncOutcome :=
  { success := stats.errors.length == 0,
    error := stats.errors.head? }

/-- The status/err_msg update of `execute_sync_by_config_id`
(filesync_service.py lines 182-228): `completed` with no message on
success, `failed` with the returned error on failure.  (The code reads
`sync_result.get("error", "未知错误")`; the `"error"` key is always
present, so the fallback literal is unreachable.) -/
def finalizeTask (o : SyncOutcome) : String × Option String :=
  if o.success then ("completed", none) else ("failed", o.error)

/-- C5: the terminal `SyncTask` status is `completed` iff `Stats.errors`
is empty when `perform_sync` finishes, otherwise `failed` with `err_msg`
the first collected error; the counters (partial successes included) play
no role in the decision. -/
theorem c5_status_completed_iff_no_errors (stats : Stats) :
    ((finalizeTask (performSyncOutcome stats)).1 = "completed" ↔ stats.errors = []) ∧
    ((finalizeTask (performSyncOutcome stats)).1 = "failed" ↔ stats.errors ≠ []) ∧
    (finalizeTask (performSyncOutcome stats)).2 = stats.errors.head? := by
  cases h : stats.errors with
  | nil => simp [finalizeTask, performSyncOutcome, h]
  | cons e rest => simp [finalizeTask, performSyncOutcome, h]

/-! ## Dispatcher execution window (`_should_execute_now`, task/tasks/filesync/tasks.py lines 282-324) -/

/-- `_should_execute_now` given the cron's `prev_execution_time` (croniter
is an external library; the instant is passed in, as a timestamp in
seconds).  `time_diff_minutes = (current_time - prev).total_seconds() / 60`
is exact rational arithmetic here; the execution window is 5 minutes. -/
def shouldExecuteNow (prevFire : ℚ) (lastSync : Option ℚ) (now : ℚ) : Bool :=
  let timeDiffMinutes : ℚ := (now - prevFire) / 60
  let executionWindowMinutes : ℚ := 5
  let inExecutionWindow := decide (0 ≤ timeDiffMinutes) && decide (timeDiffMinutes ≤ executionWindowMinutes)
  match lastSync with
  | none => inExecutionWindow
  | some lastSyncDt => decide (lastSyncDt < prevFire) && inExecutionWindow

/-- C6: a config (with valid cron) is dispatched iff the lag
`now - prev_fire` lies in `[0, 5 minutes]` (300 seconds) and additionally
`last_sync` is null or `last_sync < prev_fire`. -/
theorem c6_eligible_iff_window_and_stale (prevFire now : ℚ) (lastSync : Option ℚ) :
    shouldExecuteNow prevFire lastSync now = true ↔
      (0 ≤ now - prevFire ∧ now - prevFire ≤ 300 ∧
        (lastSync = none ∨ ∃ ls, lastSync = some ls ∧ ls < prevFire)) := by
  have h60 : (0 : ℚ) < 60 := by norm_num
  have hw : ((now - prevFire) / 60 ≤ 5) ↔ (now - prevFire ≤ 300) := by
    rw [div_le_iff₀ h60]
    norm_num
  have hz : (0 ≤ (now - prevFire) / 60) ↔ (0 ≤ now - prevFire) := by
    rw [le_div_iff₀ h60]
    norm_num
  cases lastSync with
  | none => simp [shouldExecuteNow, hw, hz, and_assoc]
  | some ls =>
      simp only [shouldExecuteNow, Bool.and_eq_true, decide_eq_true_eq]
      constructor
      · rintro ⟨hlt, h0, h5⟩
        exact ⟨hz.mp h0, hw.mp h5, Or.inr ⟨ls, rfl, hlt⟩⟩
      · rintro ⟨h0, h5, hc⟩
        rcases hc with hc | ⟨ls', hls, hlt⟩
        · exact Option.noConfusion hc
        · injection hls with hls
          subst hls
          exact ⟨hlt, hz.mpr h0, hw.mpr h5⟩

/-! ## Rename rules (rule_template_service.py lines 329-373, filesync_service.py lines 136-177) -/

/-- A compiled rename rule.  `sub` abstracts the pre-compiled regex
substitution `self.regex.sub(self.replace_string, ·)` of
`RenameRule.generate_new_path` (the Python `re` engine is an external
library); everything around it follows the source. -/
structure RenameRuleM where
  sub : String → String

/-- `RenameRule.generate_new_path` (rule_template_service.py lines
354-373) on the selected scope value: return `None` on a falsy (empty)
value (`if not original_value: return None`, lines 363-364), else
substitute and return `None` when the value is unchanged. -/
def generateNewPath (r : RenameRuleM) (scopeValue : String) : Option String :=
  if scopeValue == "" then none
  else
    let newValue := r.sub scopeValue
    if newValue == scopeValue then none else some newValue

/-- Modelled from the spec: the planned transform of §4.2 — "names are
compared after the first matching rename".  No such call exists in the
engine; this definition exists only to state the claim. -/
def applyFirstRename (rules : List RenameRuleM) (name : String) : String :=
  match rules with
  | [] => name
  | r :: rest =>
      match generateNewPath r name with
      | some v => v
      | none => applyFirstRename rest name

/-- The rule-loading fragment of `execute_sync_by_config_id`
(filesync_service.py lines 136-177): `parse_rule_templates` yields
`exclude_rules, rename_rules`, then `perform_sync` is invoked with the
parsed method — the `rename_rules` binding is never passed on. -/
def executeSyncCore (renameRules : List RenameRuleM) (methodStr : Option String)
    (maxDepth : Nat) (sp tp : String) (S T : Listing) : Stats × Listing × List SyncOp :=
  let syncMethod := parseSyncMethod methodStr
  performSync syncMethod maxDepth sp tp S T

/-- C7 (amended): the compiled rename rules are loaded but never applied
anywhere in the diff — the whole sync result is independent of them (the
diff compares raw names); `generate_new_path` itself returns a value
exactly when the scope value is non-empty and the substitution changes
it. -/
theorem c7_amended_rename_rules_unused :
    (∀ (r1 r2 : List RenameRuleM) methodStr maxDepth sp tp S T,
      executeSyncCore r1 methodStr maxDepth sp tp S T =
        executeSyncCore r2 methodStr maxDepth sp tp S T) ∧
    (∀ (r : RenameRuleM) (v : String),
      generateNewPath r v = none ↔ (v = "" ∨ r.sub v = v)) := by
  constructor
  · intro r1 r2 methodStr maxDepth sp tp S T
    rfl
  · intro r v
    by_cases hv : v = ""
    · simp [generateNewPath, hv]
    · by_cases h : r.sub v = v
      · simp [generateNewPath, hv, h]
      · simp [generateNewPath, hv, h]

/-- Witness for C7 at concrete inputs: two different rule lists produce
the same run, and a changing substitution yields `some`. -/
theorem c7_witness :
    executeSyncCore [⟨fun s => s ++ "x"⟩] (some "incremental") 5 "/s/" "/t/"
        [SNode.file "a.txt" 10 "i"] [] =
      executeSyncCore [] (some "incremental") 5 "/s/" "/t/"
        [SNode.file "a.txt" 10 "i"] [] :=
  (c7_amended_rename_rules_unused.1 [⟨fun s => s ++ "x"⟩] [] (some "incremental") 5 "/s/" "/t/"
    [SNode.file "a.txt" 10 "i"] [])

/-- The concrete rename rule `a.txt → b.txt` (a regex substitution that
fires only on `a.txt`). -/
def renameAtoB : RenameRuleM := ⟨fun s => if s == "a.txt" then "b.txt" else s⟩

/-- C7 counterexample to the claim as stated: the rule renames `a.txt` to
`b.txt` and the target already holds `b.txt` with the same size, so a diff
comparing names after the first matching rename would transfer nothing —
yet the engine transfers the file (`files_transferred = 1`): the rename is
not applied before the equality comparison. -/
theorem c7_counterexample :
    applyFirstRename [renameAtoB] "a.txt" = "b.txt" ∧
    tgtSize [SNode.file "b.txt" 10 "j"] "b.txt" = (10 : Int) ∧
    (executeSyncCore [renameAtoB] (some "incremental") 5 "/s/" "/t/"
      [SNode.file "a.txt" 10 "i"] [SNode.file "b.txt" 10 "j"]).1.files_transferred = 1 := by
  refine ⟨by decide, by decide, by decide⟩

end FbaSync

namespace FbaSync

/-! ## Adaptive error policy (`_handle_transfer_error`, filesync_service.py lines 1138-1223) -/

/-- Python's substring test `needle in hay` on character lists. -/
def chInfix (needle : List Char) : List Char → Bool
  | [] => needle.isEmpty
  | c :: t => needle.isPrefixOf (c :: t) || chInfix needle t

/-- Python `needle in hay` on strings. -/
def strIn (needle hay : String) : Bool :=
  chInfix needle.data hay.data

/-- Conflict-class signal (filesync_service.py line 1168): `error_code: 111`
or the unfinished-task message. -/
def isConflictErr (e : String) : Bool :=
  strIn "error_code: 111" e || strIn "当前还有未完成的任务" e

/-- Entry test of the generic transfer-failure branch (line 1183). -/
def isTransferFailEntry (e : String) : Bool :=
  strIn "批量转存失败：API返回False" e || strIn "转存失败" e

/-- Count predicate of the transfer-failure branch (line 1190). -/
def isTransferFailCount (e : String) : Bool :=
  strIn "批量转存失败" e || strIn "转存失败" e

/-- Delete-failure signal (line 1198). -/
def isDeleteFailErr (e : String) : Bool :=
  strIn "批量删除失败" e || strIn "删除失败" e || strIn "error_code: 31066" e

/-- Network-class signal (lines 1203-1204): `error_code: 6`, `网络`,
lower-cased `timeout`, or a JSON-decode `Expecting value`. -/
def isNetworkErr (e : String) : Bool :=
  strIn "error_code: 6" e || strIn "网络" e || strIn "timeout" (strLower e) ||
    strIn "Expecting value" e

/-- Outcome of one `_handle_transfer_error` consultation: continue or
abort, the backoff sleep the call performed (in seconds), and the error
list after any termination message was appended. -/
structure ErrDecision where
  cont : Bool
  sleep : Nat
  errors : List String
deriving Repr, DecidableEq

/-- `_handle_transfer_error` (filesync_service.py lines 1138-1223),
evaluated on the running error list: no errors → continue; total ≥ 5 →
abort; otherwise classify the latest error top-down — conflict class
(sleep 30, abort when the error list holds ≥ 3 conflict errors), generic
transfer failure (sleep 30, abort at ≥ 3), delete failure (skip,
continue), network class (sleep 10, abort at ≥ 2), anything else
continues. -/
def handleTransferError (errors : List String) : ErrDecision :=
  if errors.isEmpty then ⟨true, 0, errors⟩
  else if 5 ≤ errors.length then
    ⟨false, 0, errors ++ ["任务终止：总错误数量达到" ++ toString errors.length ++ "个"]⟩
  else
    let latest := errors.getLast?.getD ""
    if isConflictErr latest then
      let conflictCount := (errors.filter isConflictErr).length
      if 3 ≤ conflictCount then
        ⟨false, 30, errors ++ ["任务终止：连续" ++ toString conflictCount ++ "次账户冲突"]⟩
      else ⟨true, 30, errors⟩
    else if isTransferFailEntry latest then
      let transferFailCount := (errors.filter isTransferFailCount).length
      if 3 ≤ transferFailCount then
        ⟨false, 30, errors ++ ["任务终止：连续" ++ toString transferFailCount ++ "次转存失败"]⟩
      else ⟨true, 30, errors⟩
    else if isDeleteFailErr latest then ⟨true, 0, errors⟩
    else if isNetworkErr latest then
      let networkErrorCount := (errors.filter isNetworkErr).length
      if 2 ≤ networkErrorCount then
        ⟨false, 10, errors ++ ["任务终止：网络错误达到" ++ toString networkErrorCount ++ "次"]⟩
      else ⟨true, 10, errors⟩
    else ⟨true, 0, errors⟩

/-- C4 (amended): the policy on the latest error string — global cap of 5
total errors aborts regardless of class; conflict-class and generic
transfer-failure errors sleep 30 s and abort once the error list holds 3
such errors IN TOTAL (not 3 consecutive); delete failures are skipped;
network-class errors sleep 10 s and abort at 2 total; anything else
continues. -/
theorem c4_amended_error_policy (errors : List String) :
    (errors = [] → handleTransferError errors = ⟨true, 0, errors⟩) ∧
    (5 ≤ errors.length → (handleTransferError errors).cont = false) ∧
    (∀ latest, errors.length < 5 → errors.getLast? = some latest →
      (isConflictErr latest = true →
        (handleTransferError errors).sleep = 30 ∧
        ((handleTransferError errors).cont = true ↔
          (errors.filter isConflictErr).length < 3)) ∧
      (isConflictErr latest = false → isTransferFailEntry latest = true →
        (handleTransferError errors).sleep = 30 ∧
        ((handleTransferError errors).cont = true ↔
          (errors.filter isTransferFailCount).length < 3)) ∧
      (isConflictErr latest = false → isTransferFailEntry latest = false →
        isDeleteFailErr latest = true →
        handleTransferError errors = ⟨true, 0, errors⟩) ∧
      (isConflictErr latest = false → isTransferFailEntry latest = false →
        isDeleteFailErr latest = false → isNetworkErr latest = true →
        (handleTransferError errors).sleep = 10 ∧
        ((handleTransferError errors).cont = true ↔
          (errors.filter isNetworkErr).length < 2)) ∧
      (isConflictErr latest = false → isTransferFailEntry latest = false →
        isDeleteFailErr latest = false → isNetworkErr latest = false →
        handleTransferError errors = ⟨true, 0, errors⟩)) := by
  refine ⟨?_, ?_, ?_⟩
  · intro h
    simp [handleTransferError, h]
  · intro h
    have hne : errors.isEmpty = false := by
      cases errors with
      | nil => simp at h
      | cons e rest => rfl
    simp [handleTransferError, hne, h]
  · intro latest hlen hlast
    have hne : errors.isEmpty = false := by
      cases errors with
      | nil => simp at hlast
      | cons e rest => rfl
    have hlt : ¬ (5 ≤ errors.length) := by omega
    have hget : errors.getLast?.getD "" = latest := by rw [hlast]; rfl
    refine ⟨?_, ?_, ?_, ?_, ?_⟩
    · intro hc
      constructor
      · by_cases h3 : 3 ≤ (errors.filter isConflictErr).length <;>
          simp [handleTransferError, hne, hlt, hget, hc, h3]
      · by_cases h3 : 3 ≤ (errors.filter isConflictErr).length <;>
          simp [handleTransferError, hne, hlt, hget, hc, h3] <;> omega
    · intro hc htf
      constructor
      · by_cases h3 : 3 ≤ (errors.filter isTransferFailCount).length <;>
          simp [handleTransferError, hne, hlt, hget, hc, htf, h3]
      · by_cases h3 : 3 ≤ (errors.filter isTransferFailCount).length <;>
          simp [handleTransferError, hne, hlt, hget, hc, htf, h3] <;> omega
    · intro hc htf hdel
      simp [handleTransferError, hne, hlt, hget, hc, htf, hdel]
    · intro hc htf hdel hnet
      constructor
      · by_cases h2 : 2 ≤ (errors.filter isNetworkErr).length <;>
          simp [handleTransferError, hne, hlt, hget, hc, htf, hdel, hnet, h2]
      · by_cases h2 : 2 ≤ (errors.filter isNetworkErr).length <;>
          simp [handleTransferError, hne, hlt, hget, hc, htf, hdel, hnet, h2] <;> omega
    · intro hc htf hdel hnet
      simp [handleTransferError, hne, hlt, hget, hc, htf, hdel, hnet]

/-- Witness for C4 at a concrete input: a single conflict error sleeps
30 s and continues. -/
theorem c4_witness :
    (handleTransferError ["error_code: 111 ージbegan"]).sleep = 30 ∧
    (handleTransferError ["error_code: 111 ージbegan"]).cont = true := by
  have h := ((c4_amended_error_policy ["error_code: 111 ージbegan"]).2.2
    "error_code: 111 ージbegan" (by decide) (by decide)).1 (by decide)
  exact ⟨h.1, h.2.mpr (by decide)⟩

/-- The trailing run of consecutive conflict-class errors at the end of
the log — what "3 consecutive occurrences" counts. -/
def trailingConflictRun (errors : List String) : Nat :=
  (errors.reverse.takeWhile isConflictErr).length

/-- The concrete error log refuting the "consecutive" reading: conflict,
other, conflict, conflict. -/
def c4Errs : List String :=
  ["当前还有未完成的任务 A", "某个其他类别的异常", "当前还有未完成的任务 B", "当前还有未完成的任务 C"]

/-- C4 counterexample to the claim as stated: with 4 collected errors
(below the global cap) whose trailing consecutive conflict run is only 2,
the code still aborts, because it counts 3 conflict errors anywhere in the
list — abort is NOT gated on 3 *consecutive* occurrences. -/
theorem c4_counterexample :
    (handleTransferError c4Errs).cont = false ∧
    trailingConflictRun c4Errs = 2 ∧
    c4Errs.length < 5 ∧
    isConflictErr (c4Errs.getLast?.getD "") = true := by
  refine ⟨by decide, by decide, by decide, by decide⟩

end FbaSync

namespace FbaSync

/-! ## Batched transfer parameters (`transfer_files`, filesync_service.py lines 728-811) -/

/-- A Python/JSON value as carried in the `files` dicts and `ext`
parameters of `transfer_files`. -/
inductive JVal where
  | nil
  | str (s : String)
  | num (n : Int)
  | arr (elems : List JVal)
  | obj (fields : List (String × JVal))
deriving Repr

/-- A Python dict as an insertion-ordered association list. -/
abbrev JDict := List (String × JVal)

/-- Python `d.get(k)` (first — and in a real dict only — binding). -/
def dictGet (d : JDict) (k : String) : Option JVal :=
  (d.find? (fun p => p.1 == k)).map (fun p => p.2)

/-- Python `d[k] = v`: overwrite in place, else append. -/
def dictSet (d : JDict) (k : String) (v : JVal) : JDict :=
  match d with
  | [] => [(k, v)]
  | (k', v') :: rest => if k' == k then (k, v) :: rest else (k', v') :: dictSet rest k v

/-- Python falsiness of the values `if not file_id:` can meet. -/
def jfalsy : JVal → Bool
  | .nil => true
  | .str s => s == ""
  | .num n => n == 0
  | .arr l => l.isEmpty
  | .obj f => f.isEmpty

/-- The keys `transfer_files` treats as file-level bookkeeping rather than
per-file extension data (filesync_service.py lines 782 and 794). -/
def transferExcludedKeys : List String :=
  ["file_name", "file_size", "source_path", "target_path", "file_id"]

/-- The extension items of one file dict (lines 781-783): every key-value
pair other than the bookkeeping keys, in dict order. -/
def fileExtras (f : JDict) : JDict :=
  f.filter (fun p => !(transferExcludedKeys.contains p.1))

/-- The id-extraction loop (lines 754-767): collect `file_id` per file in
order; a falsy id aborts the whole call (returns `False` without issuing
any transfer). -/
def extractFileIds : List JDict → Option (List JVal)
  | [] => some []
  | f :: rest =>
      let fid := (dictGet f "file_id").getD (JVal.str "")
      if jfalsy fid then none
      else (extractFileIds rest).map (fun ids => fid :: ids)

/-- `files_ext_info` (lines 773-785): per file, an object holding its
`file_id` (`.get('file_id')`, `None` when absent) and its `file_ext`
extras, in the order of the input file list. -/
def filesExtInfo (files : List JDict) : List JVal :=
  files.map (fun f =>
    JVal.obj [("file_id", (dictGet f "file_id").getD JVal.nil),
              ("file_ext", JVal.obj (fileExtras f))])

/-- The `TransferParam` fields the token-correspondence contract is about. -/
structure TransferParamM where
  file_ids : List JVal
  ext : JDict
deriving Repr

/-- The parameter construction of `transfer_files` (lines 747-811):
`None` when no transfer is issued (empty input, or some file without id);
otherwise the `file_ids` list and the `ext` dict — the source's
`ext_params` base, then `ext_params['files_ext_info'] = files_ext_info`,
then (for backward compatibility) every extra of the FIRST file merged on
top (lines 790-795). -/
def buildTransferParams (extParamsBase : JDict) (files : List JDict) :
    Option TransferParamM :=
  if files.isEmpty then none
  else
    match extractFileIds files with
    | none => none
    | some ids =>
        let ep0 := extParamsBase
        let ep1 := dictSet ep0 "files_ext_info" (JVal.arr (filesExtInfo files))
        let ep2 := (fileExtras (files.headD [])).foldl (fun d p => dictSet d p.1 p.2) ep1
        some ⟨ids, ep2⟩

/-- The token-correspondence contract of §4.3.1 on built parameters:
`ext['files_ext_info']` is a list of the same length as `file_ids` whose
`i`-th entry carries exactly `file_ids[i]`. -/
def tokenCorrespondence (tp : TransferParamM) : Prop :=
  ∃ l, dictGet tp.ext "files_ext_info" = some (JVal.arr l) ∧
    l.length = tp.file_ids.length ∧
    ∀ i fid, tp.file_ids.get? i = some fid →
      ∃ fields, l.get? i = some (JVal.obj fields) ∧
        dictGet fields "file_id" = some fid

theorem dictGet_dictSet_self (d : JDict) (k : String) (v : JVal) :
    dictGet (dictSet d k v) k = some v := by
  induction d with
  | nil => simp [dictSet, dictGet]
  | cons p rest ih =>
      by_cases h : p.1 = k
      · simp [dictSet, dictGet, h]
      · have hb : (p.1 == k) = false := beq_eq_false_iff_ne.mpr h
        simp only [dictSet]
        rw [show ((p.1, p.2) : String × JVal) = p from rfl]
        simp only [hb, Bool.false_eq_true, if_false, dictGet, List.find?]
        exact ih

theorem dictGet_dictSet_ne (d : JDict) (k k' : String) (v : JVal) (h : k' ≠ k) :
    dictGet (dictSet d k v) k' = dictGet d k' := by
  induction d with
  | nil =>
      have hb : (k == k') = false := beq_eq_false_iff_ne.mpr (Ne.symm h)
      simp [dictSet, dictGet, hb]
  | cons p rest ih =>
      by_cases hp : p.1 = k
      · have hb : (k == k') = false := beq_eq_false_iff_ne.mpr (Ne.symm h)
        have hbp : (p.1 == k') = false := beq_eq_false_iff_ne.mpr (hp ▸ Ne.symm h)
        simp [dictSet, dictGet, hp, hb, hbp, List.find?]
      · have hbp : (p.1 == k) = false := beq_eq_false_iff_ne.mpr hp
        simp only [dictSet]
        rw [show ((p.1, p.2) : String × JVal) = p from rfl]
        simp only [hbp, Bool.false_eq_true, if_false]
        cases hfind : (p.1 == k') with
        | true => simp [dictGet, List.find?, hfind]
        | false => simp [dictGet, List.find?, hfind]; exact ih

theorem dictGet_foldl_dictSet_ne (ps : JDict) (d : JDict) (k : String)
    (h : ∀ p ∈ ps, p.1 ≠ k) :
    dictGet (ps.foldl (fun d p => dictSet d p.1 p.2) d) k = dictGet d k := by
  induction ps generalizing d with
  | nil => rfl
  | cons p rest ih =>
      rw [List.foldl_cons, ih _ (fun q hq => h q (List.mem_cons_of_mem _ hq))]
      exact dictGet_dictSet_ne d p.1 k p.2 (Ne.symm (h p (List.mem_cons_self _ _)))

theorem extractFileIds_all_ids (files : List JDict)
    (hid : ∀ f ∈ files, ∃ i, dictGet f "file_id" = some (JVal.str i) ∧ i ≠ "") :
    extractFileIds files =
      some (files.map (fun f => (dictGet f "file_id").getD (JVal.str ""))) := by
  induction files with
  | nil => rfl
  | cons f rest ih =>
      obtain ⟨i, hget, hne⟩ := hid f (List.mem_cons_self _ _)
      have hrest := ih (fun g hg => hid g (List.mem_cons_of_mem _ hg))
      have hfalsy : jfalsy ((dictGet f "file_id").getD (JVal.str "")) = false := by
        rw [hget]
        simpa [jfalsy] using hne
      simp [extractFileIds, hfalsy, hrest]

/-- C1 (amended): when `transfer_files` issues a batched transfer on a
non-empty file list whose entries all carry a non-empty `file_id` and
whose FIRST entry has no stray extra key named `files_ext_info` (the
backward-compatibility merge of lines 790-795 would clobber the token
list otherwise), the built parameters satisfy the token-correspondence
contract, with `file_ids` in input order. -/
theorem c1_amended_token_correspondence (extParamsBase : JDict) (files : List JDict)
    (hne : files ≠ [])
    (hid : ∀ f ∈ files, ∃ i, dictGet f "file_id" = some (JVal.str i) ∧ i ≠ "")
    (hclob : ∀ p ∈ fileExtras (files.headD []), p.1 ≠ "files_ext_info") :
    ∃ tp, buildTransferParams extParamsBase files = some tp ∧
      tp.file_ids = files.map (fun f => (dictGet f "file_id").getD (JVal.str "")) ∧
      tokenCorrespondence tp := by
  have hids := extractFileIds_all_ids files hid
  have hempty : files.isEmpty = false := by
    cases files with
    | nil => exact absurd rfl hne
    | cons f rest => rfl
  have hbuild : buildTransferParams extParamsBase files =
      some ⟨files.map (fun f => (dictGet f "file_id").getD (JVal.str "")),
        (fileExtras (files.headD [])).foldl (fun d p => dictSet d p.1 p.2)
          (dictSet extParamsBase "files_ext_info" (JVal.arr (filesExtInfo files)))⟩ := by
    rw [buildTransferParams]
    simp only [hempty, Bool.false_eq_true, if_false, hids]
  refine ⟨_, hbuild, rfl, ?_⟩
  refine ⟨filesExtInfo files, ?_, ?_, ?_⟩
  · dsimp only
    rw [dictGet_foldl_dictSet_ne _ _ _ hclob, dictGet_dictSet_self]
  · simp [filesExtInfo]
  · intro i fid hfid
    dsimp only at hfid
    rw [List.get?_map] at hfid
    cases hf : files.get? i with
    | none => rw [hf] at hfid; exact Option.noConfusion hfid
    | some f =>
        rw [hf] at hfid
        injection hfid with hfid
        obtain ⟨idstr, hget, -⟩ := hid f (List.get?_mem hf)
        refine ⟨[("file_id", (dictGet f "file_id").getD JVal.nil),
                 ("file_ext", JVal.obj (fileExtras f))], ?_, ?_⟩
        · rw [filesExtInfo, List.get?_map, hf]
          rfl
        · rw [← hfid]
          dsimp only
          rw [hget]
          rfl

/-- The pathological file dict whose extra key `files_ext_info` survives
the exclusion filter and clobbers the token list. -/
def c1File : JDict :=
  [("file_id", JVal.str "x"), ("file_name", JVal.str "a"),
   ("files_ext_info", JVal.str "junk")]

/-- C1 counterexample to the claim as stated: the single-entry file list
`[c1File]` is non-empty and carries a non-empty `file_id`, a batched
transfer is issued, yet `ext['files_ext_info']` ends up as the string
`"junk"` (the first file's extras are merged on top of the ext dict after
the token list is stored), so the `len`/index correspondence fails. -/
theorem c1_counterexample :
    (∃ i, dictGet c1File "file_id" = some (JVal.str i) ∧ i ≠ "") ∧
    ∃ tp, buildTransferParams [] [c1File] = some tp ∧
      tp.file_ids.length = 1 ∧
      dictGet tp.ext "files_ext_info" = some (JVal.str "junk") ∧
      ¬ tokenCorrespondence tp := by
  have hbuild : buildTransferParams [] [c1File] =
      some ⟨[JVal.str "x"], [("files_ext_info", JVal.str "junk")]⟩ := rfl
  refine ⟨⟨"x", rfl, by decide⟩, ⟨_, hbuild, rfl, rfl, ?_⟩⟩
  rintro ⟨l, hl, -, -⟩
  have h2 : some (JVal.str "junk") = some (JVal.arr l) := by
    rw [← hl]
    rfl
  injection h2 with h2
  exact JVal.noConfusion h2

end FbaSync

namespace FbaSync

/-! ## Idempotence of the incremental strategy (C2) -/

/-- Height of a source tree: number of directory levels below this one. -/
def heightList : Listing → Nat
  | [] => 0
  | SNode.file _ _ _ :: rest => heightList rest
  | SNode.dir _ c :: rest => max (heightList c + 1) (heightList rest)

/-- Total number of files in a tree, all levels included. -/
def fileCountList : Listing → Nat
  | [] => 0
  | SNode.file _ _ _ :: rest => fileCountList rest + 1
  | SNode.dir _ c :: rest => fileCountList c + fileCountList rest

/-- Well-formed listing, as every real drive listing is: canonical keys
are pairwise distinct at each level (the Python side guarantees this by
keying a dict), file names do not end in `'/'`, and the same recursively
below. -/
def wfL : Listing → Bool
  | [] => true
  | SNode.file n _ _ :: rest =>
      (n.data.getLast? != some '/') && !(rest.any (fun t => t.key == n)) && wfL rest
  | SNode.dir n c :: rest =>
      !(rest.any (fun t => t.key == n ++ "/")) && wfL c && wfL rest

/-- `T` covers `S`: every source file exists on the target under the same
canonical name with the same byte size (the transfer decision of
`sync_with_have` says "skip"), and every source directory exists on the
target with a child listing that covers the source children. -/
def matchesB : Listing → Listing → Bool
  | [], _ => true
  | SNode.file n sz _ :: rest, T => !(needsTransfer T n sz) && matchesB rest T
  | SNode.dir n c :: rest, T =>
      (match findByKey T (n ++ "/") with
       | some (SNode.dir _ tc) => matchesB c tc
       | _ => false) && matchesB rest T

theorem dirKey_getLast (n : String) : (n ++ "/").data.getLast? = some '/' := by
  rw [String.data_append]
  rw [show ("/" : String).data = ['/'] from rfl]
  exact List.getLast?_concat _

theorem slashless_ne_dirKey {k : String} (hk : k.data.getLast? ≠ some '/') (n : String) :
    k ≠ n ++ "/" := by
  intro h
  exact hk (h ▸ dirKey_getLast n)

theorem wfL_tail {e : SNode} {rest : Listing} (h : wfL (e :: rest) = true) :
    wfL rest = true := by
  cases e <;> simp [wfL] at h <;> exact h.2

theorem wfL_dir_children {n : String} {c : Listing} {S : Listing}
    (hwf : wfL S = true) (hmem : SNode.dir n c ∈ S) : wfL c = true := by
  induction S with
  | nil => simp at hmem
  | cons e rest ih =>
      rcases List.mem_cons.mp hmem with heq | hmem'
      · subst heq
        simp [wfL] at hwf
        exact hwf.1.2
      · exact ih (wfL_tail hwf) hmem'

theorem wfL_file_slashless {n : String} {sz : Nat} {fid : String} {S : Listing}
    (hwf : wfL S = true) (hmem : SNode.file n sz fid ∈ S) :
    n.data.getLast? ≠ some '/' := by
  induction S with
  | nil => simp at hmem
  | cons e rest ih =>
      rcases List.mem_cons.mp hmem with heq | hmem'
      · subst heq
        simp [wfL] at hwf
        exact hwf.1.1
      · exact ih (wfL_tail hwf) hmem'

theorem wfL_head_not_in_tail {e : SNode} {rest : Listing}
    (h : wfL (e :: rest) = true) : ∀ t ∈ rest, t.key ≠ e.key := by
  intro t hmem
  cases e with
  | file n sz fid =>
      simp [wfL] at h
      exact fun hk => (h.1.2 t hmem) (by rw [hk]; rfl)
  | dir n c =>
      simp [wfL] at h
      exact fun hk => (h.1.1 t hmem) (by rw [hk]; rfl)

theorem wfL_key_unique {S : Listing} (hwf : wfL S = true) :
    ∀ e ∈ S, ∀ e' ∈ S, e.key = e'.key → e = e' := by
  induction S with
  | nil => intro e he; simp at he
  | cons x rest ih =>
      intro e he e' he' hk
      rcases List.mem_cons.mp he with he1 | he1
      · rcases List.mem_cons.mp he' with he2 | he2
        · rw [he1, he2]
        · subst he1
          exact absurd hk.symm (wfL_head_not_in_tail hwf e' he2)
      · rcases List.mem_cons.mp he' with he2 | he2
        · subst he2
          exact absurd hk (wfL_head_not_in_tail hwf e he1)
        · exact ih (wfL_tail hwf) e he1 e' he2 hk

theorem heightList_dir_le {n : String} {c : Listing} {S : Listing}
    (hmem : SNode.dir n c ∈ S) : heightList c + 1 ≤ heightList S := by
  induction S with
  | nil => simp at hmem
  | cons e rest ih =>
      rcases List.mem_cons.mp hmem with heq | hmem'
      · subst heq
        simp [heightList]
      · cases e with
        | file n' sz' fid' => simpa [heightList] using ih hmem'
        | dir n' c' =>
            have := ih hmem'
            simp only [heightList]
            omega

end FbaSync

namespace FbaSync

theorem findByKey_append_of_some {T : Listing} {k : String} {t : SNode}
    (h : findByKey T k = some t) (T' : Listing) :
    findByKey (T ++ T') k = some t := by
  rw [findByKey] at h ⊢
  rw [List.find?_append, h]
  rfl

theorem findByKey_append_of_none {T : Listing} {k : String}
    (h : findByKey T k = none) (T' : Listing) :
    findByKey (T ++ T') k = findByKey T' k := by
  rw [findByKey] at h ⊢
  rw [List.find?_append, h]
  rfl

theorem findByKey_append_singleton_ne {T : Listing} {x : SNode} {k : String}
    (h : x.key ≠ k) :
    findByKey (T ++ [x]) k = findByKey T k := by
  cases hf : findByKey T k with
  | some t => exact findByKey_append_of_some hf [x]
  | none =>
      rw [findByKey_append_of_none hf [x]]
      have hb : (x.key == k) = false := beq_eq_false_iff_ne.mpr h
      simp [findByKey, List.find?, hb]

theorem findByKey_append_singleton_self {T : Listing} {x : SNode} {k : String}
    (hnone : findByKey T k = none) (hk : x.key = k) :
    findByKey (T ++ [x]) k = some x := by
  rw [findByKey_append_of_none hnone [x]]
  have hb : (x.key == k) = true := beq_iff_eq.mpr hk
  simp [findByKey, List.find?, hb]

theorem findByKey_upsert_self (T : Listing) (it : XferItem) :
    findByKey (upsertFile T it) it.name = some (SNode.file it.name it.size it.fid) := by
  induction T with
  | nil => simp [upsertFile, findByKey, List.find?, SNode.key]
  | cons t rest ih =>
      cases hb : (t.key == it.name) with
      | true =>
          simp only [upsertFile, hb, if_true]
          simp [findByKey, List.find?, SNode.key]
      | false =>
          simp only [upsertFile, hb, Bool.false_eq_true, if_false]
          simp only [findByKey, List.find?, hb]
          exact ih

theorem findByKey_upsert_ne {k : String} {it : XferItem} (h : k ≠ it.name)
    (T : Listing) :
    findByKey (upsertFile T it) k = findByKey T k := by
  induction T with
  | nil =>
      have hb : ((SNode.file it.name it.size it.fid).key == k) = false := by
        rw [SNode.key]
        exact beq_eq_false_iff_ne.mpr (Ne.symm h)
      simp [upsertFile, findByKey, List.find?, hb]
  | cons t rest ih =>
      cases hb : (t.key == it.name) with
      | true =>
          have hbt : (t.key == k) = false := by
            rw [beq_iff_eq.mp hb]
            exact beq_eq_false_iff_ne.mpr (Ne.symm h)
          have hbn : ((SNode.file it.name it.size it.fid).key == k) = false := by
            rw [SNode.key]
            exact beq_eq_false_iff_ne.mpr (Ne.symm h)
          simp only [upsertFile, hb, if_true]
          simp [findByKey, List.find?, hbt, hbn]
      | false =>
          simp only [upsertFile, hb, Bool.false_eq_true, if_false]
          cases hk : (t.key == k) with
          | true => simp [findByKey, List.find?, hk]
          | false =>
              simp only [findByKey, List.find?, hk]
              exact ih

theorem findByKey_applyTransfer_ne {k : String} {items : List XferItem}
    (h : ∀ it ∈ items, it.name ≠ k) (T : Listing) :
    findByKey (applyTransfer T items) k = findByKey T k := by
  induction items generalizing T with
  | nil => rfl
  | cons it rest ih =>
      rw [applyTransfer, List.foldl_cons]
      rw [show List.foldl upsertFile (upsertFile T it) rest =
        applyTransfer (upsertFile T it) rest from rfl]
      rw [ih (fun x hx => h x (List.mem_cons_of_mem _ hx))]
      exact findByKey_upsert_ne (fun hk => h it (List.mem_cons_self _ _) hk.symm) T

theorem findByKey_applyTransfer_mem {items : List XferItem} {it : XferItem}
    (hmem : it ∈ items) (hnd : (items.map XferItem.name).Nodup) (T : Listing) :
    findByKey (applyTransfer T items) it.name =
      some (SNode.file it.name it.size it.fid) := by
  induction items generalizing T with
  | nil => simp at hmem
  | cons x rest ih =>
      rw [applyTransfer, List.foldl_cons,
        show List.foldl upsertFile (upsertFile T x) rest =
          applyTransfer (upsertFile T x) rest from rfl]
      rcases List.mem_cons.mp hmem with heq | hmem'
      · subst heq
        have hnotin : ∀ y ∈ rest, y.name ≠ it.name := by
          intro y hy he
          have : it.name ∈ rest.map XferItem.name := he ▸ List.mem_map_of_mem _ hy
          exact (List.nodup_cons.mp hnd).1 this
        rw [findByKey_applyTransfer_ne (fun y hy => hnotin y hy) (upsertFile T it)]
        exact findByKey_upsert_self T it
      · exact ih hmem' (List.nodup_cons.mp hnd).2 (upsertFile T x)

theorem findByKey_setDir_ne {k n : String} (h : k ≠ n ++ "/") (T : Listing)
    (c : Listing) :
    findByKey (setDirChildren T n c) k = findByKey T k := by
  induction T with
  | nil => rfl
  | cons t rest ih =>
      cases hb : (t.key == n ++ "/") with
      | true =>
          have hbt : (t.key == k) = false := by
            rw [beq_iff_eq.mp hb]
            exact beq_eq_false_iff_ne.mpr (Ne.symm h)
          have hbn : ((SNode.dir n c).key == k) = false := by
            rw [SNode.key]
            exact beq_eq_false_iff_ne.mpr (Ne.symm h)
          simp only [setDirChildren, hb, if_true]
          simp [findByKey, List.find?, hbt, hbn]
      | false =>
          simp only [setDirChildren, hb, Bool.false_eq_true, if_false]
          cases hk : (t.key == k) with
          | true => simp [findByKey, List.find?, hk]
          | false =>
              simp only [findByKey, List.find?, hk]
              exact ih

theorem findByKey_setDir_some {n : String} {T : Listing}
    (h : (findByKey T (n ++ "/")).isSome = true) (c : Listing) :
    findByKey (setDirChildren T n c) (n ++ "/") = some (SNode.dir n c) := by
  induction T with
  | nil => simp [findByKey] at h
  | cons t rest ih =>
      cases hb : (t.key == n ++ "/") with
      | true =>
          have hkey : ((SNode.dir n c).key == n ++ "/") = true := by
            rw [SNode.key]
            exact beq_iff_eq.mpr rfl
          simp only [setDirChildren, hb, if_true]
          simp [findByKey, List.find?, hkey]
      | false =>
          simp only [findByKey, List.find?, hb] at h
          simp only [setDirChildren, hb, Bool.false_eq_true, if_false]
          simp only [findByKey, List.find?, hb]
          exact ih h

theorem allFiles_mem_file {S : Listing} {x : XferItem} (h : x ∈ allFiles S) :
    SNode.file x.name x.size x.fid ∈ S := by
  induction S with
  | nil => simp [allFiles] at h
  | cons e rest ih =>
      cases e with
      | file n sz fid =>
          rcases List.mem_cons.mp (by simpa [allFiles] using h) with heq | hmem
          · subst heq
            exact List.mem_cons_self _ _
          · exact List.mem_cons_of_mem _ (ih hmem)
      | dir n c => exact List.mem_cons_of_mem _ (ih (by simpa [allFiles] using h))

theorem file_mem_allFiles {S : Listing} {n : String} {sz : Nat} {fid : String}
    (h : SNode.file n sz fid ∈ S) : (⟨n, sz, fid⟩ : XferItem) ∈ allFiles S := by
  induction S with
  | nil => simp at h
  | cons e rest ih =>
      rcases List.mem_cons.mp h with heq | hmem
      · subst heq
        simp [allFiles]
      · cases e with
        | file n' sz' fid' => simp [allFiles]; right; simpa [allFiles] using ih hmem
        | dir n' c => simpa [allFiles] using ih hmem

theorem collectFiles_mem_file {T S : Listing} {x : XferItem}
    (h : x ∈ collectFiles T S) : SNode.file x.name x.size x.fid ∈ S := by
  induction S with
  | nil => simp [collectFiles] at h
  | cons e rest ih =>
      cases e with
      | file n sz fid =>
          cases hn : needsTransfer T n sz with
          | true =>
              simp only [collectFiles, hn, if_true] at h
              rcases List.mem_cons.mp h with heq | hmem
              · subst heq
                exact List.mem_cons_self _ _
              · exact List.mem_cons_of_mem _ (ih hmem)
          | false =>
              simp only [collectFiles, hn, Bool.false_eq_true, if_false] at h
              exact List.mem_cons_of_mem _ (ih h)
      | dir n c =>
          rw [collectFiles] at h
          exact List.mem_cons_of_mem _ (ih h)

theorem allFiles_names_nodup {S : Listing} (hwf : wfL S = true) :
    ((allFiles S).map XferItem.name).Nodup := by
  induction S with
  | nil => simp [allFiles]
  | cons e rest ih =>
      cases e with
      | file n sz fid =>
          simp only [allFiles, List.map_cons, List.nodup_cons]
          refine ⟨?_, ih (wfL_tail hwf)⟩
          intro hmem
          obtain ⟨x, hx, hxn⟩ := List.mem_map.mp hmem
          have hfile := allFiles_mem_file hx
          rw [hxn] at hfile
          have := wfL_head_not_in_tail hwf _ hfile
          simp [SNode.key] at this
      | dir n c =>
          rw [allFiles]
          exact ih (wfL_tail hwf)

theorem collectFiles_names_nodup {T S : Listing} (hwf : wfL S = true) :
    ((collectFiles T S).map XferItem.name).Nodup := by
  induction S with
  | nil => simp [collectFiles]
  | cons e rest ih =>
      cases e with
      | file n sz fid =>
          cases hn : needsTransfer T n sz with
          | true =>
              simp only [collectFiles, hn, if_true, List.map_cons, List.nodup_cons]
              refine ⟨?_, ih (wfL_tail hwf)⟩
              intro hmem
              obtain ⟨x, hx, hxn⟩ := List.mem_map.mp hmem
              have hfile := collectFiles_mem_file hx
              rw [hxn] at hfile
              have := wfL_head_not_in_tail hwf _ hfile
              simp [SNode.key] at this
          | false =>
              simp only [collectFiles, hn, Bool.false_eq_true, if_false]
              exact ih (wfL_tail hwf)
      | dir n c =>
          rw [collectFiles]
          exact ih (wfL_tail hwf)

theorem needsTransfer_of_found {T : Listing} {n : String} {sz : Nat} {fid : String}
    (h : findByKey T n = some (SNode.file n sz fid)) :
    needsTransfer T n sz = false := by
  simp [needsTransfer, tgtSize, h]

theorem findByKey_file_of_slashless {T : Listing} {k : String} {e : SNode}
    (hk : k.data.getLast? ≠ some '/') (h : findByKey T k = some e) :
    ∃ sz fid, e = SNode.file k sz fid := by
  have hke : e.key = k := by
    have := List.find?_some h
    exact beq_iff_eq.mp this
  cases e with
  | file n sz fid =>
      rw [SNode.key] at hke
      subst hke
      exact ⟨sz, fid, rfl⟩
  | dir n c =>
      rw [SNode.key] at hke
      exact absurd hke.symm (slashless_ne_dirKey hk n)

end FbaSync

namespace FbaSync

theorem collectFiles_nil_of_matched {S T : Listing} (h : matchesB S T = true) :
    collectFiles T S = [] := by
  induction S with
  | nil => rfl
  | cons e rest ih =>
      cases e with
      | file n sz fid =>
          simp only [matchesB, Bool.and_eq_true, Bool.not_eq_true'] at h
          simp only [collectFiles, h.1, Bool.false_eq_true, if_false]
          exact ih h.2
      | dir n c =>
          simp only [matchesB, Bool.and_eq_true] at h
          rw [collectFiles]
          exact ih h.2

theorem haveLoop_matched_stats (fuel : Nat)
    (ih : ∀ sp tp S' T' s', matchesB S' T' = true → heightList S' < fuel →
      (syncGoHave fuel "incremental" sp tp S' T' s').1 =
        { s' with files_processed := s'.files_processed + fileCountList S',
                  files_skipped := s'.files_skipped + fileCountList S' }) :
    ∀ entries origT T sp tp s, matchesB entries origT = true →
      heightList entries ≤ fuel →
      (haveLoop (syncGoHave fuel "incremental") (syncGoWo fuel "incremental")
          sp tp entries origT T s).1 =
        { s with files_processed := s.files_processed + fileCountList entries,
                 files_skipped := s.files_skipped + fileCountList entries } := by
  intro entries
  induction entries with
  | nil =>
      intro origT T sp tp s hm hh
      simp [haveLoop, fileCountList]
  | cons e rest ihr =>
      intro origT T sp tp s hm hh
      cases e with
      | file n sz fid =>
          simp only [matchesB, Bool.and_eq_true, Bool.not_eq_true'] at hm
          have hhr : heightList rest ≤ fuel := by
            simpa only [heightList] using hh
          simp only [haveLoop, hm.1, Bool.false_eq_true, if_false]
          rw [ihr origT T sp tp _ hm.2 hhr]
          simp only [fileCountList, Stats.mk.injEq, and_true, true_and]
          omega
      | dir n c =>
          simp only [matchesB, Bool.and_eq_true] at hm
          obtain ⟨hmatch, hrest⟩ := hm
          cases hf : findByKey origT (n ++ "/") with
          | none => rw [hf] at hmatch; exact absurd hmatch (by simp)
          | some t =>
              cases t with
              | file n' sz' fid' => rw [hf] at hmatch; exact absurd hmatch (by simp)
              | dir n' tc =>
                  rw [hf] at hmatch
                  have hmc : matchesB c tc = true := hmatch
                  have hhc : heightList c < fuel := by
                    have : heightList c + 1 ≤ heightList (SNode.dir n c :: rest) := by
                      simp [heightList]
                    omega
                  have hhr : heightList rest ≤ fuel := by
                    have : heightList rest ≤ heightList (SNode.dir n c :: rest) := by
                      simp [heightList]
                    omega
                  simp only [haveLoop, hf]
                  rw [show (SNode.dir n' tc).childrenD = tc from rfl]
                  rw [ih (childPath sp n) (childPath tp n) c tc s hmc hhc]
                  rw [ihr origT _ sp tp _ hrest hhr]
                  simp only [fileCountList, Stats.mk.injEq, and_true, true_and]
                  omega

theorem syncGoHave_matched_stats :
    ∀ fuel sp tp S T s, matchesB S T = true → heightList S < fuel →
      (syncGoHave fuel "incremental" sp tp S T s).1 =
        { s with files_processed := s.files_processed + fileCountList S,
                 files_skipped := s.files_skipped + fileCountList S } := by
  intro fuel
  induction fuel with
  | zero => intro sp tp S T s hm hh; exact absurd hh (Nat.not_lt_zero _)
  | succ fuel ih =>
      intro sp tp S T s hm hh
      have hloop := haveLoop_matched_stats fuel
        (fun sp tp S' T' s' hm' hh' => ih sp tp S' T' s' hm' hh')
        S T T sp tp s hm (Nat.lt_succ_iff.mp hh)
      have hcf : collectFiles T S = [] := collectFiles_nil_of_matched hm
      have hfx : (haveLoop (syncGoHave fuel "incremental") (syncGoWo fuel "incremental")
          sp tp S T T s).2.2.2.isEmpty = true := by
        rw [haveLoop_toTransfer, hcf]
        rfl
      have hfull : (("incremental" : String) == "full") = false := rfl
      simp only [syncGoHave, hfx, if_true, hfull, Bool.false_eq_true, if_false]
      exact hloop

end FbaSync

namespace FbaSync

theorem matchesB_of_entries (S T : Listing)
    (hfile : ∀ n sz fid, SNode.file n sz fid ∈ S → needsTransfer T n sz = false)
    (hdir : ∀ n c, SNode.dir n c ∈ S →
      ∃ cs, findByKey T (n ++ "/") = some (SNode.dir n cs) ∧ matchesB c cs = true) :
    matchesB S T = true := by
  induction S with
  | nil => rw [matchesB]
  | cons e rest ih =>
      cases e with
      | file n sz fid =>
          rw [matchesB, hfile n sz fid (List.mem_cons_self _ _)]
          simp only [Bool.not_false, Bool.true_and]
          exact ih (fun n' sz' fid' hm => hfile _ _ _ (List.mem_cons_of_mem _ hm))
            (fun n' c' hm => hdir _ _ (List.mem_cons_of_mem _ hm))
      | dir n c =>
          rw [matchesB]
          obtain ⟨cs, hfind, hmc⟩ := hdir n c (List.mem_cons_self _ _)
          rw [hfind]
          simp only [hmc, Bool.true_and]
          exact ih (fun n' sz' fid' hm => hfile _ _ _ (List.mem_cons_of_mem _ hm))
            (fun n' c' hm => hdir _ _ (List.mem_cons_of_mem _ hm))

theorem woLoop_run1 (fuel : Nat)
    (ihC : ∀ sp tp S' s', wfL S' = true → heightList S' < fuel →
      ∃ a, (syncGoWo fuel "incremental" sp tp S' s').2.1 = some a ∧ matchesB S' a = true) :
    ∀ entries acc sp tp s, wfL entries = true → heightList entries ≤ fuel →
      (∀ e ∈ entries, findByKey acc e.key = none) →
      ((∀ k, (∀ n c, SNode.dir n c ∈ entries → n ++ "/" ≠ k) →
          findByKey (woLoop (syncGoWo fuel "incremental") sp tp entries acc s).2.1 k =
            findByKey acc k) ∧
       (∀ n c, SNode.dir n c ∈ entries →
          ∃ cs, findByKey
              (woLoop (syncGoWo fuel "incremental") sp tp entries acc s).2.1 (n ++ "/") =
              some (SNode.dir n cs) ∧ matchesB c cs = true)) := by
  intro entries
  induction entries with
  | nil =>
      intro acc sp tp s hwf hh hfresh
      exact ⟨fun k hk => rfl, fun n c hm => by simp at hm⟩
  | cons e rest ih =>
      intro acc sp tp s hwf hh hfresh
      cases e with
      | file n sz fid =>
          have hhr : heightList rest ≤ fuel := by simpa only [heightList] using hh
          have hr := ih acc sp tp { s with files_processed := s.files_processed + 1 }
            (wfL_tail hwf) hhr (fun e he => hfresh e (List.mem_cons_of_mem _ he))
          constructor
          · intro k hk
            simp only [woLoop]
            exact hr.1 k (fun n' c' hm => hk n' c' (List.mem_cons_of_mem _ hm))
          · intro n' c' hm
            rcases List.mem_cons.mp hm with heq | hm'
            · exact absurd heq (by simp)
            · simp only [woLoop]
              exact hr.2 n' c' hm'
      | dir n c =>
          have hhc : heightList c < fuel := by
            have h1 : heightList c + 1 ≤ heightList (SNode.dir n c :: rest) := by
              simp [heightList]
            omega
          have hhr : heightList rest ≤ fuel := by
            have h1 : heightList rest ≤ heightList (SNode.dir n c :: rest) := by
              simp [heightList]
            omega
          obtain ⟨cs, hsub, hmc⟩ := ihC (childPath sp n) (childPath tp n) c s
            (wfL_dir_children hwf (List.mem_cons_self _ _)) hhc
          have hkeyne : ∀ e ∈ rest, (SNode.dir n cs).key ≠ e.key := by
            intro e he hk
            exact (wfL_head_not_in_tail hwf e he) (by rw [← hk]; rfl)
          have hfreshrest : ∀ e ∈ rest,
              findByKey (acc ++ [SNode.dir n cs]) e.key = none := by
            intro e he
            rw [findByKey_append_singleton_ne (hkeyne e he)]
            exact hfresh e (List.mem_cons_of_mem _ he)
          have hr := ih (acc ++ [SNode.dir n cs]) sp tp
            (syncGoWo fuel "incremental" (childPath sp n) (childPath tp n) c s).1
            (wfL_tail hwf) hhr hfreshrest
          have hacc' : (match (syncGoWo fuel "incremental" (childPath sp n)
              (childPath tp n) c s).2.1 with
            | none => acc
            | some cs => acc ++ [SNode.dir n cs]) = acc ++ [SNode.dir n cs] := by
            rw [hsub]
          constructor
          · intro k hk
            simp only [woLoop, hacc']
            rw [hr.1 k (fun n' c' hm => hk n' c' (List.mem_cons_of_mem _ hm))]
            exact findByKey_append_singleton_ne
              (show (SNode.dir n cs).key ≠ k from hk n c (List.mem_cons_self _ _))
          · intro n' c' hm
            rcases List.mem_cons.mp hm with heq | hm'
            · injection heq with h1 h2
              subst h1
              subst h2
              refine ⟨cs, ?_, hmc⟩
              simp only [woLoop, hacc']
              rw [hr.1 (n' ++ "/") (fun m mc hmm hk =>
                (wfL_head_not_in_tail hwf _ hmm) (by simp only [SNode.key]; exact hk))]
              exact findByKey_append_singleton_self
                (hfresh _ (List.mem_cons_self _ _)) rfl
            · simp only [woLoop, hacc']
              exact hr.2 n' c' hm'

theorem syncGoWo_run1_matches :
    ∀ fuel sp tp S s, wfL S = true → heightList S < fuel →
      ∃ a, (syncGoWo fuel "incremental" sp tp S s).2.1 = some a ∧
        matchesB S a = true := by
  intro fuel
  induction fuel with
  | zero => intro sp tp S s hwf hh; exact absurd hh (Nat.not_lt_zero _)
  | succ fuel ih =>
      intro sp tp S s hwf hh
      have hloop := woLoop_run1 fuel (fun sp tp S' s' h1 h2 => ih sp tp S' s' h1 h2)
        S [] sp tp { s with folder_created := s.folder_created + 1 }
        hwf (Nat.lt_succ_iff.mp hh) (fun e he => rfl)
      have hfx : (woLoop (syncGoWo fuel "incremental") sp tp S []
          { s with folder_created := s.folder_created + 1 }).2.2.2 = allFiles S :=
        woLoop_toTransfer _ _ _ _ _ _
      have hdirspres : ∀ n c, SNode.dir n c ∈ S →
          ∃ cs, findByKey (applyTransfer
              (woLoop (syncGoWo fuel "incremental") sp tp S []
                { s with folder_created := s.folder_created + 1 }).2.1
              (allFiles S)) (n ++ "/") =
            some (SNode.dir n cs) ∧ matchesB c cs = true := by
        intro n c hm
        obtain ⟨cs, hfind, hmc⟩ := hloop.2 n c hm
        refine ⟨cs, ?_, hmc⟩
        rw [findByKey_applyTransfer_ne ?_ _]
        · exact hfind
        · intro it hit
          have hf := allFiles_mem_file hit
          have hsl := wfL_file_slashless hwf hf
          exact slashless_ne_dirKey hsl n
      cases hemp : (allFiles S).isEmpty with
      | true =>
          have hnil : allFiles S = [] := by simpa using hemp
          have hisEmpty : (woLoop (syncGoWo fuel "incremental") sp tp S []
              { s with folder_created := s.folder_created + 1 }).2.2.2.isEmpty = true := by
            rw [hfx, hnil]
            rfl
          refine ⟨(woLoop (syncGoWo fuel "incremental") sp tp S []
              { s with folder_created := s.folder_created + 1 }).2.1,
            by simp only [syncGoWo, hisEmpty, if_true], ?_⟩
          refine matchesB_of_entries _ _ ?_ ?_
          · intro n sz fid hm
            have : (⟨n, sz, fid⟩ : XferItem) ∈ allFiles S := file_mem_allFiles hm
            rw [hnil] at this
            simp at this
          · intro n c hm
            obtain ⟨cs, hfind, hmc⟩ := hloop.2 n c hm
            exact ⟨cs, hfind, hmc⟩
      | false =>
          have hisEmpty : (woLoop (syncGoWo fuel "incremental") sp tp S []
              { s with folder_created := s.folder_created + 1 }).2.2.2.isEmpty = false := by
            rw [hfx]
            exact hemp
          refine ⟨applyTransfer
              (woLoop (syncGoWo fuel "incremental") sp tp S []
                { s with folder_created := s.folder_created + 1 }).2.1 (allFiles S),
            by simp only [syncGoWo, hfx, hemp, Bool.false_eq_true, if_false], ?_⟩
          refine matchesB_of_entries _ _ ?_ ?_
          · intro n sz fid hm
            have hmem : (⟨n, sz, fid⟩ : XferItem) ∈ allFiles S := file_mem_allFiles hm
            have hfound := findByKey_applyTransfer_mem hmem (allFiles_names_nodup hwf)
              (woLoop (syncGoWo fuel "incremental") sp tp S []
                { s with folder_created := s.folder_created + 1 }).2.1
            exact needsTransfer_of_found hfound
          · exact hdirspres

end FbaSync

namespace FbaSync

theorem needsTransfer_false_found {T : Listing} {n : String} {sz : Nat}
    (hsl : n.data.getLast? ≠ some '/') (h : needsTransfer T n sz = false) :
    ∃ fid, findByKey T n = some (SNode.file n sz fid) := by
  rw [needsTransfer, Bool.or_eq_false_iff] at h
  obtain ⟨h1, h2⟩ := h
  cases hf : findByKey T n with
  | none => rw [hf] at h1; simp at h1
  | some e =>
      obtain ⟨sz', fid, rfl⟩ := findByKey_file_of_slashless hsl hf
      rw [bne_eq_false_iff_eq] at h2
      simp only [tgtSize, hf] at h2
      have hszsz : sz' = sz := by exact_mod_cast h2
      exact ⟨fid, by rw [hszsz]⟩

theorem haveLoop_run1 (fuel : Nat)
    (ihB : ∀ sp tp S' T' s', wfL S' = true → heightList S' < fuel →
      matchesB S' (syncGoHave fuel "incremental" sp tp S' T' s').2.1 = true) :
    ∀ entries origT T sp tp s, wfL entries = true → heightList entries ≤ fuel →
      (∀ e ∈ entries, (findByKey T e.key).isNone = (findByKey origT e.key).isNone) →
      ((∀ k, (∀ n c, SNode.dir n c ∈ entries → n ++ "/" ≠ k) →
          findByKey (haveLoop (syncGoHave fuel "incremental") (syncGoWo fuel "incremental")
            sp tp entries origT T s).2.1 k = findByKey T k) ∧
       (∀ n c, SNode.dir n c ∈ entries →
          ∃ cs, findByKey (haveLoop (syncGoHave fuel "incremental") (syncGoWo fuel "incremental")
              sp tp entries origT T s).2.1 (n ++ "/") =
            some (SNode.dir n cs) ∧ matchesB c cs = true)) := by
  intro entries
  induction entries with
  | nil =>
      intro origT T sp tp s hwf hh hpres
      exact ⟨fun k hk => rfl, fun n c hm => by simp at hm⟩
  | cons e rest ih =>
      intro origT T sp tp s hwf hh hpres
      cases e with
      | file n sz fid =>
          have hhr : heightList rest ≤ fuel := by simpa only [heightList] using hh
          have hpres' : ∀ e ∈ rest, (findByKey T e.key).isNone =
              (findByKey origT e.key).isNone :=
            fun e he => hpres e (List.mem_cons_of_mem _ he)
          cases hn : needsTransfer origT n sz with
          | true =>
              have hr := ih origT T sp tp
                { s with files_processed := s.files_processed + 1 }
                (wfL_tail hwf) hhr hpres'
              constructor
              · intro k hk
                simp only [haveLoop, hn, if_true]
                exact hr.1 k (fun n' c' hm => hk n' c' (List.mem_cons_of_mem _ hm))
              · intro n' c' hm
                rcases List.mem_cons.mp hm with heq | hm'
                · exact absurd heq (by simp)
                · simp only [haveLoop, hn, if_true]
                  exact hr.2 n' c' hm'
          | false =>
              have hr := ih origT T sp tp
                { s with files_processed := s.files_processed + 1,
                         files_skipped := s.files_skipped + 1 }
                (wfL_tail hwf) hhr hpres'
              constructor
              · intro k hk
                simp only [haveLoop, hn, Bool.false_eq_true, if_false]
                exact hr.1 k (fun n' c' hm => hk n' c' (List.mem_cons_of_mem _ hm))
              · intro n' c' hm
                rcases List.mem_cons.mp hm with heq | hm'
                · exact absurd heq (by simp)
                · simp only [haveLoop, hn, Bool.false_eq_true, if_false]
                  exact hr.2 n' c' hm'
      | dir n c =>
          have hhc : heightList c < fuel := by
            have h1 : heightList c + 1 ≤ heightList (SNode.dir n c :: rest) := by
              simp [heightList]
            omega
          have hhr : heightList rest ≤ fuel := by
            have h1 : heightList rest ≤ heightList (SNode.dir n c :: rest) := by
              simp [heightList]
            omega
          have hwfc : wfL c = true := wfL_dir_children hwf (List.mem_cons_self _ _)
          have hkeysne : ∀ e ∈ rest, e.key ≠ n ++ "/" := by
            intro e he hk
            exact (wfL_head_not_in_tail hwf e he) (by rw [hk]; rfl)
          cases hf : findByKey origT (n ++ "/") with
          | none =>
              have hTnone : findByKey T (n ++ "/") = none := by
                have := hpres (SNode.dir n c) (List.mem_cons_self _ _)
                rw [SNode.key] at this
                rw [hf] at this
                simp only [Option.isNone_none] at this
                exact Option.eq_none_iff_forall_not_mem.mpr (fun a ha => by
                  rw [Option.isNone_iff_eq_none.symm] at *
                  cases hfT : findByKey T (n ++ "/") with
                  | none => rw [hfT] at ha; exact Option.noConfusion ha
                  | some b => rw [hfT] at this; simp at this) 
              obtain ⟨cs, hsub, hmc⟩ := syncGoWo_run1_matches fuel
                (childPath sp n) (childPath tp n) c s hwfc hhc
              have hacc' : (match (syncGoWo fuel "incremental" (childPath sp n)
                  (childPath tp n) c s).2.1 with
                | none => T
                | some cs => T ++ [SNode.dir n cs]) = T ++ [SNode.dir n cs] := by
                rw [hsub]
              have hpres2 : ∀ e ∈ rest, (findByKey (T ++ [SNode.dir n cs]) e.key).isNone =
                  (findByKey origT e.key).isNone := by
                intro e he
                rw [findByKey_append_singleton_ne
                  (show (SNode.dir n cs).key ≠ e.key from
                    fun hk => (hkeysne e he) (by rw [← hk]; rfl))]
                exact hpres e (List.mem_cons_of_mem _ he)
              have hr := ih origT (T ++ [SNode.dir n cs]) sp tp
                (syncGoWo fuel "incremental" (childPath sp n) (childPath tp n) c s).1
                (wfL_tail hwf) hhr hpres2
              constructor
              · intro k hk
                simp only [haveLoop, hf, hacc']
                rw [hr.1 k (fun n' c' hm => hk n' c' (List.mem_cons_of_mem _ hm))]
                exact findByKey_append_singleton_ne
                  (show (SNode.dir n cs).key ≠ k from hk n c (List.mem_cons_self _ _))
              · intro n' c' hm
                rcases List.mem_cons.mp hm with heq | hm'
                · injection heq with h1 h2
                  subst h1
                  subst h2
                  refine ⟨cs, ?_, hmc⟩
                  simp only [haveLoop, hf, hacc']
                  rw [hr.1 (n' ++ "/") (fun m mc hmm hk =>
                    (hkeysne _ hmm) (by simp only [SNode.key]; exact hk))]
                  exact findByKey_append_singleton_self hTnone rfl
                · simp only [haveLoop, hf, hacc']
                  exact hr.2 n' c' hm'
          | some t =>
              have hTsome : (findByKey T (n ++ "/")).isSome = true := by
                have := hpres (SNode.dir n c) (List.mem_cons_self _ _)
                rw [SNode.key, hf] at this
                cases hfT : findByKey T (n ++ "/") with
                | none => rw [hfT] at this; simp at this
                | some b => rfl
              have hmc := ihB (childPath sp n) (childPath tp n) c t.childrenD s hwfc hhc
              have hpres2 : ∀ e ∈ rest,
                  (findByKey (setDirChildren T n
                    (syncGoHave fuel "incremental" (childPath sp n) (childPath tp n)
                      c t.childrenD s).2.1) e.key).isNone =
                  (findByKey origT e.key).isNone := by
                intro e he
                rw [findByKey_setDir_ne (hkeysne e he) _ _]
                exact hpres e (List.mem_cons_of_mem _ he)
              have hr := ih origT
                (setDirChildren T n
                  (syncGoHave fuel "incremental" (childPath sp n) (childPath tp n)
                    c t.childrenD s).2.1) sp tp
                (syncGoHave fuel "incremental" (childPath sp n) (childPath tp n)
                  c t.childrenD s).1
                (wfL_tail hwf) hhr hpres2
              constructor
              · intro k hk
                simp only [haveLoop, hf]
                rw [hr.1 k (fun n' c' hm => hk n' c' (List.mem_cons_of_mem _ hm))]
                exact findByKey_setDir_ne
                  (Ne.symm (hk n c (List.mem_cons_self _ _))) _ _
              · intro n' c' hm
                rcases List.mem_cons.mp hm with heq | hm'
                · injection heq with h1 h2
                  subst h1
                  subst h2
                  refine ⟨(syncGoHave fuel "incremental" (childPath sp n')
                    (childPath tp n') c' t.childrenD s).2.1, ?_, hmc⟩
                  simp only [haveLoop, hf]
                  rw [hr.1 (n' ++ "/") (fun m mc hmm hk =>
                    (hkeysne _ hmm) (by simp only [SNode.key]; exact hk))]
                  exact findByKey_setDir_some hTsome _
                · simp only [haveLoop, hf]
                  exact hr.2 n' c' hm'

end FbaSync

namespace FbaSync

theorem syncGoHave_run1_matches :
    ∀ fuel sp tp S T s, wfL S = true → heightList S < fuel →
      matchesB S (syncGoHave fuel "incremental" sp tp S T s).2.1 = true := by
  intro fuel
  induction fuel with
  | zero => intro sp tp S T s hwf hh; exact absurd hh (Nat.not_lt_zero _)
  | succ fuel ih =>
      intro sp tp S T s hwf hh
      have hloop := haveLoop_run1 fuel (fun a b S' T' s' h1 h2 => ih a b S' T' s' h1 h2)
        S T T sp tp s hwf (Nat.lt_succ_iff.mp hh) (fun e he => rfl)
      have hfx' : (haveLoop (syncGoHave fuel "incremental") (syncGoWo fuel "incremental")
          sp tp S T T s).2.2.2 = collectFiles T S := haveLoop_toTransfer _ _ _ _ _ _ _ _
      have hfull : (("incremental" : String) == "full") = false := rfl
      have hframe : ∀ k : String, k.data.getLast? ≠ some '/' →
          findByKey (haveLoop (syncGoHave fuel "incremental") (syncGoWo fuel "incremental")
            sp tp S T T s).2.1 k = findByKey T k := by
        intro k hk
        exact hloop.1 k (fun m mc hmm => Ne.symm (slashless_ne_dirKey hk m))
      cases hemp : (collectFiles T S).isEmpty with
      | true =>
          have hnil : collectFiles T S = [] := by simpa using hemp
          have hisEmpty : (haveLoop (syncGoHave fuel "incremental")
              (syncGoWo fuel "incremental") sp tp S T T s).2.2.2.isEmpty = true := by
            rw [hfx', hnil]
            rfl
          have htgt : (syncGoHave (fuel + 1) "incremental" sp tp S T s).2.1 =
              (haveLoop (syncGoHave fuel "incremental") (syncGoWo fuel "incremental")
                sp tp S T T s).2.1 := by
            simp only [syncGoHave, hisEmpty, if_true, hfull, Bool.false_eq_true, if_false]
          rw [htgt]
          refine matchesB_of_entries _ _ ?_ ?_
          · intro n sz fid hm
            cases hn : needsTransfer T n sz with
            | true =>
                have hc := collectFiles_mem_complete T S n sz fid hm hn
                rw [hnil] at hc
                simp at hc
            | false =>
                have hsl := wfL_file_slashless hwf hm
                obtain ⟨fid', hfound⟩ := needsTransfer_false_found hsl hn
                have hkeep : findByKey (haveLoop (syncGoHave fuel "incremental")
                    (syncGoWo fuel "incremental") sp tp S T T s).2.1 n =
                    some (SNode.file n sz fid') := by
                  rw [hframe n hsl]
                  exact hfound
                exact needsTransfer_of_found hkeep
          · exact hloop.2
      | false =>
          have hisEmpty : (haveLoop (syncGoHave fuel "incremental")
              (syncGoWo fuel "incremental") sp tp S T T s).2.2.2.isEmpty = false := by
            rw [hfx']
            exact hemp
          have htgt : (syncGoHave (fuel + 1) "incremental" sp tp S T s).2.1 =
              applyTransfer (haveLoop (syncGoHave fuel "incremental")
                (syncGoWo fuel "incremental") sp tp S T T s).2.1 (collectFiles T S) := by
            simp only [syncGoHave, hfx', hemp, Bool.false_eq_true, if_false, hfull]
          rw [htgt]
          have hslnames : ∀ it ∈ collectFiles T S, it.name.data.getLast? ≠ some '/' := by
            intro it hit
            exact wfL_file_slashless hwf (collectFiles_mem_file hit)
          refine matchesB_of_entries _ _ ?_ ?_
          · intro n sz fid hm
            cases hn : needsTransfer T n sz with
            | true =>
                have hmem := collectFiles_mem_complete T S n sz fid hm hn
                have hfound := findByKey_applyTransfer_mem hmem
                  (collectFiles_names_nodup hwf)
                  (haveLoop (syncGoHave fuel "incremental") (syncGoWo fuel "incremental")
                    sp tp S T T s).2.1
                exact needsTransfer_of_found hfound
            | false =>
                have hsl := wfL_file_slashless hwf hm
                obtain ⟨fid', hfound⟩ := needsTransfer_false_found hsl hn
                have hnotin : ∀ it ∈ collectFiles T S, it.name ≠ n := by
                  intro it hit hne
                  have hfit := collectFiles_mem_file hit
                  rw [hne] at hfit
                  have heq := wfL_key_unique hwf _ hfit _ hm (by rfl)
                  injection heq with e1 e2 e3
                  have hdec := collectFiles_mem_decision T S it.name it.size it.fid hit
                  rw [hne, e2] at hdec
                  rw [hdec] at hn
                  exact Bool.noConfusion hn
                have hkeep : findByKey (applyTransfer
                    (haveLoop (syncGoHave fuel "incremental") (syncGoWo fuel "incremental")
                      sp tp S T T s).2.1 (collectFiles T S)) n =
                    some (SNode.file n sz fid') := by
                  rw [findByKey_applyTransfer_ne hnotin, hframe n hsl]
                  exact hfound
                exact needsTransfer_of_found hkeep
          · intro n c hm
            obtain ⟨cs, hfind, hmc⟩ := hloop.2 n c hm
            refine ⟨cs, ?_, hmc⟩
            rw [findByKey_applyTransfer_ne
              (fun it hit => slashless_ne_dirKey (hslnames it hit) n)]
            exact hfind

/-- C2: running the incremental strategy twice on the same source tree
with no external change in between is a no-op the second time: the second
run transfers nothing and counts every source file as skipped.  Stated for
well-formed listings (distinct canonical names per level, as a drive
listing always has) whose depth stays within `max_depth`. -/
theorem c2_incremental_rerun_noop (maxDepth : Nat) (sp tp : String) (S T : Listing)
    (hwf : wfL S = true) (hh : heightList S < maxDepth) :
    (syncWithHave "incremental" maxDepth 0 sp tp S
      (syncWithHave "incremental" maxDepth 0 sp tp S T Stats.init).2.1
      Stats.init).1.files_transferred = 0 ∧
    (syncWithHave "incremental" maxDepth 0 sp tp S
      (syncWithHave "incremental" maxDepth 0 sp tp S T Stats.init).2.1
      Stats.init).1.files_skipped = fileCountList S := by
  have hB : matchesB S (syncGoHave maxDepth "incremental" sp tp S T Stats.init).2.1 = true :=
    syncGoHave_run1_matches maxDepth sp tp S T Stats.init hwf hh
  have hA := syncGoHave_matched_stats maxDepth sp tp S
    (syncGoHave maxDepth "incremental" sp tp S T Stats.init).2.1 Stats.init hB hh
  have hwrap : syncWithHave "incremental" maxDepth 0 sp tp S
      (syncWithHave "incremental" maxDepth 0 sp tp S T Stats.init).2.1 Stats.init =
      syncGoHave maxDepth "incremental" sp tp S
        (syncGoHave maxDepth "incremental" sp tp S T Stats.init).2.1 Stats.init := rfl
  rw [hwrap, hA]
  exact ⟨rfl, Nat.zero_add _⟩

/-- The concrete source tree of the C2 witness. -/
def c2S : Listing :=
  [SNode.file "a.txt" 10 "i1", SNode.dir "b" [SNode.file "c.txt" 20 "i2"]]

/-- Witness for C2: the seed scenario (a file plus a directory with one
file, empty target, `max_depth = 100`) re-runs with zero transfers and
both files skipped. -/
theorem c2_witness :
    (syncWithHave "incremental" 100 0 "/root/" "/dst/" c2S
      (syncWithHave "incremental" 100 0 "/root/" "/dst/" c2S [] Stats.init).2.1
      Stats.init).1.files_transferred = 0 ∧
    (syncWithHave "incremental" 100 0 "/root/" "/dst/" c2S
      (syncWithHave "incremental" 100 0 "/root/" "/dst/" c2S [] Stats.init).2.1
      Stats.init).1.files_skipped = fileCountList c2S :=
  c2_incremental_rerun_noop 100 "/root/" "/dst/" c2S []
    (by simp [c2S, wfL, SNode.key]) (by simp [c2S, heightList])

end FbaSync

namespace FbaSync

/-- A well-behaved two-file input for the C1 witness. -/
def c1GoodFiles : List JDict :=
  [[("file_id", JVal.str "x1"), ("file_name", JVal.str "a"), ("msg_id", JVal.str "m1")],
   [("file_id", JVal.str "x2"), ("file_name", JVal.str "b"),
    ("share_fid_token", JVal.str "t2")]]

/-- Witness for C1 at a concrete input: two files with ordinary per-file
extras build parameters satisfying the token correspondence. -/
theorem c1_witness :
    ∃ tp, buildTransferParams [("source_type", JVal.str "link")] c1GoodFiles = some tp ∧
      tp.file_ids = c1GoodFiles.map (fun f => (dictGet f "file_id").getD (JVal.str "")) ∧
      tokenCorrespondence tp :=
  c1_amended_token_correspondence [("source_type", JVal.str "link")] c1GoodFiles
    (by simp [c1GoodFiles])
    (by
      intro f hf
      simp only [c1GoodFiles, List.mem_cons, List.not_mem_nil, or_false] at hf
      rcases hf with rfl | rfl
      · exact ⟨"x1", rfl, by decide⟩
      · exact ⟨"x2", rfl, by decide⟩)
    (by
      intro p hp
      have hx : fileExtras (c1GoodFiles.headD []) = [("msg_id", JVal.str "m1")] := rfl
      rw [hx] at hp
      simp only [List.mem_cons, List.not_mem_nil, or_false] at hp
      rw [hp]
      decide)

/-- Witness for C5 at concrete stats: a run with one transferred file and
one collected error finalises as `failed` with that error. -/
theorem c5_witness :
    (finalizeTask (performSyncOutcome ⟨3, 0, 2, 0, 1, ["批量转存失败：API返回False"]⟩)).1 =
      "failed" ∧
    (finalizeTask (performSyncOutcome ⟨3, 0, 2, 0, 1, ["批量转存失败：API返回False"]⟩)).2 =
      some "批量转存失败：API返回False" := by
  have h := c5_status_completed_iff_no_errors ⟨3, 0, 2, 0, 1, ["批量转存失败：API返回False"]⟩
  exact ⟨h.2.1.mpr (by simp), h.2.2⟩

/-- Witness for C6 at concrete instants: a tick 90 seconds after the
firing, with a last sync strictly before the firing, is dispatched. -/
theorem c6_witness :
    shouldExecuteNow 600 (some 0) 690 = true :=
  (c6_eligible_iff_window_and_stale 600 690 (some 0)).mpr
    (by norm_num)

end FbaSync
